import Mathlib

/-!
# Verification of the SPUMONI MS/PML query core

Shallow embedding of `src/compute_ms_pml.cpp` (classes `pml_pointers`,
`ms_pointers`, `pml_t`, `ms_t`): the run-length BWT primitives, the
F-table construction `build_F_`, the suffix-array sample loader
`read_samples`, the PML and MS backward-search query loops (plain and
document-aware), the MS forward length-reconstruction sweep, and the
index serialization/load round trip.

Machine integers (`ulint`, `size_t`) are modelled as `Nat`; the one place
where unsigned wraparound is reachable (the `sample--` decrement in the
MS query) is modelled explicitly modulo `2 ^ 64`.

The RLBWT primitives (`rank`, `select`, `run_of_position`,
`number_of_letter`, `access`, `size`, `number_of_runs`) live in the
external `ms_rle_string` class; they are modelled here from the contracts
stated in spec section 4.1 over the run decomposition held by the index.
-/

set_option maxRecDepth 100000

namespace Spumoni

/-- Modelled from the spec: the reserved TERMINATOR byte (the smallest
symbol of the text alphabet).  Its numeric value comes from the missing
header `spumoni_main.hpp`; the spec fixes only that it is the single
smallest byte occurring in the text, and `build_F_` folds every byte
`≤ TERMINATOR` into bucket `TERMINATOR`.  We use the conventional value 1. -/
def TERMINATOR : ℕ := 1

/-- `2 ^ 64`, the modulus of the C++ `ulint` (`uint64_t`) arithmetic. -/
def U64 : ℕ := 2 ^ 64

/-- A run-length BWT: the list of (head character, run length) pairs.
This is the data the index constructor reads from `<ref>.bwt.heads` /
`<ref>.bwt.len`. -/
structure RLBWT where
  runs : List (ℕ × ℕ)
deriving DecidableEq, Repr

namespace RLBWT

/-- The BWT as a flat character list (run-length decoding). -/
def toList (b : RLBWT) : List ℕ :=
  (b.runs.map fun p => List.replicate p.2 p.1).flatten

/-- Modelled from the spec (4.1): `size() → n`. -/
def size (b : RLBWT) : ℕ := b.toList.length

/-- Modelled from the spec (4.1): `number_of_runs() → r`. -/
def number_of_runs (b : RLBWT) : ℕ := b.runs.length

/-- Modelled from the spec (4.1): `access(i)` returns BWT[i]
(only meaningful for `i < size`; the C++ access is undefined out of
range, every in-code use is guarded by `pos < size`). -/
def access (b : RLBWT) (i : ℕ) : ℕ := b.toList.getD i 0

/-- Modelled from the spec (4.1): `rank(i, c)` = number of occurrences of
`c` in BWT[0..i). -/
def rank (b : RLBWT) (i c : ℕ) : ℕ :=
  ((b.toList.take i).filter fun x => x = c).length

/-- Modelled from the spec (4.1): `number_of_letter(c)` = occ(c, BWT). -/
def number_of_letter (b : RLBWT) (c : ℕ) : ℕ :=
  (b.toList.filter fun x => x = c).length

/-- The sorted list of BWT positions holding character `c`. -/
def positionsOf (b : RLBWT) (c : ℕ) : List ℕ :=
  (List.range b.size).filter fun j => b.access j = c

/-- Modelled from the spec (4.1): `select(k, c)` = position of the
(k+1)-th occurrence of `c` (0-indexed).  Out-of-range `select` is
undefined behaviour in the C++; the default 0 here is only ever hit on
inputs where the C++ has no defined result. -/
def select (b : RLBWT) (k c : ℕ) : ℕ := (b.positionsOf c).getD k 0

/-- Helper for `run_of_position`: walk the run decomposition. -/
def runOfAux : List (ℕ × ℕ) → ℕ → ℕ
  | [], _ => 0
  | p :: rs, i => if i < p.2 then 0 else runOfAux rs (i - p.2) + 1

/-- Modelled from the spec (4.1): `run_of_position(i)` = id of the run
containing position `i`. -/
def run_of_position (b : RLBWT) (i : ℕ) : ℕ := runOfAux b.runs i

end RLBWT

/-- The PML index (`pml_pointers`): r-index fields plus thresholds.
Field names follow the source. -/
structure PMLIndex where
  bwt : RLBWT
  F : List ℕ
  terminator_position : ℕ
  thresholds : List ℕ
  r : ℕ
deriving DecidableEq, Repr

/-- `pml_pointers::LF`: `LF(i, c) = F[c] + bwt.rank(i, c)`. -/
def PMLIndex.LF (idx : PMLIndex) (i c : ℕ) : ℕ :=
  idx.F.getD c 0 + idx.bwt.rank i c

/-- The MS index (`ms_pointers`): r-index fields plus thresholds and the
two suffix-array sample arrays. -/
structure MSIndex where
  bwt : RLBWT
  F : List ℕ
  terminator_position : ℕ
  samples_last : List ℕ
  thresholds : List ℕ
  samples_start : List ℕ
  r : ℕ
deriving DecidableEq, Repr

/-- `ms_pointers::LF`: `LF(i, c) = F[c] + bwt.rank(i, c)`. -/
def MSIndex.LF (idx : MSIndex) (i c : ℕ) : ℕ :=
  idx.F.getD c 0 + idx.bwt.rank i c

/-- The document array (`doc_array.hpp`, loaded from `<ref>.doc`):
document ids at the first/last BWT position of each run. -/
structure DocArray where
  start_runs_doc : List ℕ
  end_runs_doc : List ℕ
deriving DecidableEq, Repr

/-!
## The generic query loop

All four `_query` overloads are `for i = 0..m-1` loops over
`c = pattern[m-i-1]` that thread a state and write one output per step
into slot `m-i-1`; equivalently, they run a step function over the
reversed pattern and reverse the emitted list.  `queryLoop` is this
shared shape.
-/

/-- Run `step` over the characters of `cs` in list order, collecting the
emitted outputs in processing order and the final state. -/
def queryLoop (step : α → ℕ → α × β) : α → List ℕ → List β × α
  | s, [] => ([], s)
  | s, c :: cs =>
    let r1 := step s c
    let r2 := queryLoop step r1.1 cs
    (r1.2 :: r2.1, r2.2)

/-- The same loop presented as a right-to-left recursion over the
pattern: the output list is indexed by pattern position (entry `i` is
the value emitted while processing `P[i]`), and the characters are still
consumed from the right end first. -/
def queryRTL (step : α → ℕ → α × β) : α → List ℕ → List β × α
  | s, [] => ([], s)
  | s, c :: cs =>
    let r1 := queryRTL step s cs
    let r2 := step r1.2 c
    (r2.2 :: r1.1, r2.1)

/-!
## PML query (`pml_pointers::_query`, lines 235-284)
-/

/-- The mismatch branch of the PML step (the `else` of `_query`):
computes the position the state snaps to.  `rnk - 1` is the C++ `rnk--`
on a `ulint`; it is only reachable with `rnk = 0` when the thresholds
vector is invalid (a valid first-run threshold is 0), in which case the
C++ `select` call is undefined behaviour. -/
def pmlMismatchPos (idx : PMLIndex) (pos c : ℕ) : ℕ :=
  let rnk := idx.bwt.rank pos c
  let tn : ℕ × ℕ :=
    if rnk < idx.bwt.number_of_letter c then
      let j := idx.bwt.select rnk c
      (idx.thresholds.getD (idx.bwt.run_of_position j) 0, j)
    else (idx.bwt.size + 1, pos)
  if pos < tn.1 then idx.bwt.select (rnk - 1) c else tn.2

/-- One iteration of `pml_pointers::_query`: state is `(pos, length)`;
returns the new state and the emitted length.  The emitted value is the
post-branch `length`, and `pos` then advances by `LF`. -/
def pmlStep (idx : PMLIndex) (s : ℕ × ℕ) (c : ℕ) : (ℕ × ℕ) × ℕ :=
  let pl : ℕ × ℕ :=
    if idx.bwt.number_of_letter c = 0 then (s.1, 0)
    else if s.1 < idx.bwt.size ∧ idx.bwt.access s.1 = c then (s.1, s.2 + 1)
    else (pmlMismatchPos idx s.1 c, 0)
  ((idx.LF pl.1 c, pl.2), pl.2)

/-- `pml_pointers::_query(pattern, m, lengths)`: starts from
`pos = bwt.size() - 1`, `length = 0`, processes the pattern from the
right, and stores the step-`i` output at `lengths[m-i-1]` — i.e. the
output list is the reversed emission sequence. -/
def pml_query (idx : PMLIndex) (P : List ℕ) : List ℕ :=
  ((queryLoop (pmlStep idx) (idx.bwt.size - 1, 0) P.reverse).1).reverse

/-!
## MS query (`ms_pointers::_query`, lines 561-614)
-/

/-- The C++ `sample--` on a `ulint`: decrement with unsigned wraparound
modulo `2 ^ 64`. -/
def decWrap (s : ℕ) : ℕ := if s = 0 then U64 - 1 else s - 1

/-- The mismatch branch of the MS step: returns `(next_pos, sample)`. -/
def msMismatch (idx : MSIndex) (pos sample c : ℕ) : ℕ × ℕ :=
  let rnk := idx.bwt.rank pos c
  let tns : ℕ × ℕ × ℕ :=
    if rnk < idx.bwt.number_of_letter c then
      let j := idx.bwt.select rnk c
      let rj := idx.bwt.run_of_position j
      (idx.thresholds.getD rj 0, j, idx.samples_start.getD rj 0)
    else (idx.bwt.size + 1, pos, sample)
  if pos < tns.1 then
    let j := idx.bwt.select (rnk - 1) c
    (j, idx.samples_last.getD (idx.bwt.run_of_position j) 0)
  else (tns.2.1, tns.2.2)

/-- One iteration of `ms_pointers::_query`: state is `(pos, sample)`;
returns the new state and the emitted pointer. -/
def msStep (idx : MSIndex) (s : ℕ × ℕ) (c : ℕ) : (ℕ × ℕ) × ℕ :=
  let ps : ℕ × ℕ :=
    if idx.bwt.number_of_letter c = 0 then (s.1, 0)
    else if s.1 < idx.bwt.size ∧ idx.bwt.access s.1 = c then (s.1, decWrap s.2)
    else msMismatch idx s.1 s.2 c
  ((idx.LF ps.1 c, ps.2), ps.2)

/-- Modelled from the spec (4.5): `r_index::get_last_run_sample()` (the
base class is not under `src/`) returns `samples_last[r-1]`, the "last
run sample". -/
def MSIndex.get_last_run_sample (idx : MSIndex) : ℕ :=
  idx.samples_last.getD (idx.bwt.number_of_runs - 1) 0

/-- `ms_pointers::_query(pattern, m, ms_pointers)`: starts from
`pos = bwt.size() - 1`, `sample = get_last_run_sample()`. -/
def ms_query (idx : MSIndex) (P : List ℕ) : List ℕ :=
  ((queryLoop (msStep idx)
      (idx.bwt.size - 1, idx.get_last_run_sample) P.reverse).1).reverse

/-!
## Document-aware query variants (lines 286-338 and 616-673)

State carries an extra `curr_doc_id`; each step emits the pair
`(length-or-sample, curr_doc_id)`.
-/

/-- State of the document-aware queries: `(pos, value, curr_doc_id)`
where `value` is the PML `length` (resp. the MS `sample`). -/
structure DocState where
  pos : ℕ
  val : ℕ
  doc : ℕ
deriving DecidableEq, Repr

/-- One iteration of the document-aware `pml_pointers::_query`
(lines 298-337).  The absent-character branch resets only `length`;
`curr_doc_id` is left unchanged. -/
def pmlDocStep (idx : PMLIndex) (da : DocArray) (s : DocState) (c : ℕ) :
    DocState × (ℕ × ℕ) :=
  let t : DocState :=
    if idx.bwt.number_of_letter c = 0 then { s with val := 0 }
    else if s.pos < idx.bwt.size ∧ idx.bwt.access s.pos = c then
      { s with val := s.val + 1 }
    else
      let rnk := idx.bwt.rank s.pos c
      let tnd : ℕ × ℕ × ℕ :=
        if rnk < idx.bwt.number_of_letter c then
          let j := idx.bwt.select rnk c
          let rj := idx.bwt.run_of_position j
          (idx.thresholds.getD rj 0, j, da.start_runs_doc.getD rj 0)
        else (idx.bwt.size + 1, s.pos, s.doc)
      if s.pos < tnd.1 then
        let j := idx.bwt.select (rnk - 1) c
        { pos := j, val := 0,
          doc := da.end_runs_doc.getD (idx.bwt.run_of_position j) 0 }
      else { pos := tnd.2.1, val := 0, doc := tnd.2.2 }
  ({ t with pos := idx.LF t.pos c }, (t.val, t.doc))

/-- `pml_pointers::_query(pattern, m, lengths, doc_nums, doc_arr)`:
returns `(lengths, doc_nums)`.  `curr_doc_id` starts at
`end_runs_doc[number_of_runs()-1]`. -/
def pml_doc_query (idx : PMLIndex) (da : DocArray) (P : List ℕ) :
    List ℕ × List ℕ :=
  let em := ((queryLoop (pmlDocStep idx da)
      { pos := idx.bwt.size - 1, val := 0,
        doc := da.end_runs_doc.getD (idx.bwt.number_of_runs - 1) 0 }
      P.reverse).1).reverse
  (em.map Prod.fst, em.map Prod.snd)

/-- One iteration of the document-aware `ms_pointers::_query`
(lines 627-672).  Unlike the PML variant, the absent-character branch
sets `sample = 0` and `curr_doc_id = start_runs_doc[run_of_position(0)]`. -/
def msDocStep (idx : MSIndex) (da : DocArray) (s : DocState) (c : ℕ) :
    DocState × (ℕ × ℕ) :=
  let t : DocState :=
    if idx.bwt.number_of_letter c = 0 then
      { s with val := 0,
               doc := da.start_runs_doc.getD (idx.bwt.run_of_position 0) 0 }
    else if s.pos < idx.bwt.size ∧ idx.bwt.access s.pos = c then
      { s with val := decWrap s.val }
    else
      let rnk := idx.bwt.rank s.pos c
      let tnd : (ℕ × ℕ) × ℕ × ℕ :=
        if rnk < idx.bwt.number_of_letter c then
          let j := idx.bwt.select rnk c
          let rj := idx.bwt.run_of_position j
          ((idx.thresholds.getD rj 0, j),
            idx.samples_start.getD rj 0, da.start_runs_doc.getD rj 0)
        else ((idx.bwt.size + 1, s.pos), s.val, s.doc)
      if s.pos < tnd.1.1 then
        let j := idx.bwt.select (rnk - 1) c
        let rj := idx.bwt.run_of_position j
        { pos := j, val := idx.samples_last.getD rj 0,
          doc := da.end_runs_doc.getD rj 0 }
      else { pos := tnd.1.2, val := tnd.2.1, doc := tnd.2.2 }
  ({ t with pos := idx.LF t.pos c }, (t.val, t.doc))

/-- `ms_pointers::_query(pattern, m, ms_pointers, doc_nums, doc_arr)`:
returns `(pointers, doc_nums)`. -/
def ms_doc_query (idx : MSIndex) (da : DocArray) (P : List ℕ) :
    List ℕ × List ℕ :=
  let em := ((queryLoop (msDocStep idx da)
      { pos := idx.bwt.size - 1, val := idx.get_last_run_sample,
        doc := da.end_runs_doc.getD (idx.bwt.number_of_runs - 1) 0 }
      P.reverse).1).reverse
  (em.map Prod.fst, em.map Prod.snd)

/-!
## `build_F_` (lines 125-153 / 439-467)

Reads the run heads (one byte each) and run lengths (5 bytes each) in
lockstep; a failed length read leaves the local `length` at 0.  Counts
go to bucket `c` for `c > TERMINATOR` and to bucket `TERMINATOR`
otherwise, and the loop counter `i` — the *run* index — is recorded as
`terminator_position` whenever `c ≤ TERMINATOR`.  Afterwards `F` is
shifted right by one and prefix-summed in place.
-/

/-- The counting loop of `build_F_`: processes head characters with the
matching run lengths, threading `(F, terminator_position)`; `i` is the
run counter. -/
def buildFCount : List ℕ → List ℕ → ℕ → List ℕ × ℕ → List ℕ × ℕ
  | [], _, _, acc => acc
  | c :: hs, ls, i, acc =>
    let len := ls.headD 0
    let acc2 : List ℕ × ℕ :=
      if TERMINATOR < c then
        (acc.1.set c (acc.1.getD c 0 + len), acc.2)
      else
        (acc.1.set TERMINATOR (acc.1.getD TERMINATOR 0 + len), i)
    buildFCount hs ls.tail (i + 1) acc2

/-- Running (inclusive) prefix sums, as the final loop of `build_F_`
computes them. -/
def prefixSums (l : List ℕ) : List ℕ :=
  (l.foldl (fun acc x => (acc.1 ++ [acc.2 + x], acc.2 + x)) ([], 0)).1

/-- `build_F_(heads, lengths)`: returns the 256-entry `F` table together
with the recorded `terminator_position`.  The shift loop
(`F[i] = F[i-1]` for `i = 255..1`, `F[0] = 0`) followed by the
prefix-sum loop turns the counts into exclusive prefix sums. -/
def build_F_ (heads lens : List ℕ) : List ℕ × ℕ :=
  let cl := buildFCount heads lens 0 (List.replicate 256 0, 0)
  (prefixSums (0 :: cl.1.take 255), cl.2)

/-!
## `read_samples` (lines 402-437)

The file is a stream of (left, right) pairs of 5-byte little-endian
values.  `error()` aborts on open/stat failure and on a size that is not
a multiple of `SSABYTES = 5`; the `assert(length == r)` (with
`length = st_size / (2*SSABYTES)`) aborts when the number of full pairs
differs from `r`.  We model the file as `Option (List ℕ)` of bytes
(`none` = open or stat failure) and a fatal outcome as `none`.
-/

/-- Little-endian value of a byte list. -/
def leVal : List ℕ → ℕ
  | [] => 0
  | b :: bs => b + 256 * leVal bs

/-- The first `k` (left, right) 5-byte pairs of a byte stream, as the
`fread` loop of `read_samples` consumes them. -/
def samplePairs : ℕ → List ℕ → List (ℕ × ℕ)
  | 0, _ => []
  | k + 1, bs =>
    (leVal (bs.take 5), leVal ((bs.drop 5).take 5)) :: samplePairs k (bs.drop 10)

/-- The value stored per pair: `right ? right - 1 : n - 1`. -/
def sampleVal (n : ℕ) (pr : ℕ × ℕ) : ℕ :=
  if pr.2 = 0 then n - 1 else pr.2 - 1

/-- `ms_pointers::read_samples(filename, r, n, samples)` (the
`pml_pointers` copy is identical): `none` models the fatal `error()` /
`assert` paths. -/
def read_samples (file : Option (List ℕ)) (r n : ℕ) : Option (List ℕ) :=
  match file with
  | none => none
  | some bytes =>
    if bytes.length % 5 ≠ 0 then none
    else if bytes.length / 10 ≠ r then none
    else some ((samplePairs r bytes).map (sampleVal n))

/-!
## MS length reconstruction (`ms_t::matching_statistics`, lines 786-801)

The forward sweep over the emitted pointers, comparing the read against
the random-access text `ra.charAt` (modelled as an abstract `char_at`
function with length `n`).
-/

/-- The inner `while` loop: extend `l` while all four conditions hold.
The guard `g` (`i < 1 || pos != pointers[i-1] + 1`) does not depend on
`l`, so it is precomputed by the caller.  `fuel` bounds the recursion;
`read.length` steps always suffice because each iteration requires
`i + l < read.length` and increments `l`. -/
def sweepWhile (read : List ℕ) (char_at : ℕ → ℕ) (n i p : ℕ) (g : Bool) :
    ℕ → ℕ → ℕ
  | 0, l => l
  | fuel + 1, l =>
    if i + l < read.length ∧ p + l < n ∧ g = true ∧
        read.getD (i + l) 0 = char_at (p + l) then
      sweepWhile read char_at n i p g fuel (l + 1)
    else l

/-- The outer `for` loop of the sweep: `i` is the current index, `l` the
carried length, `prev` the previous pointer (unused when `i = 0`). -/
def msLengthsAux (read : List ℕ) (char_at : ℕ → ℕ) (n : ℕ) :
    List ℕ → ℕ → ℕ → ℕ → List ℕ
  | [], _, _, _ => []
  | p :: ps, i, l, prev =>
    let g : Bool := decide (i < 1 ∨ p ≠ prev + 1)
    let l2 := sweepWhile read char_at n i p g read.length l
    l2 :: msLengthsAux read char_at n ps (i + 1) (if l2 = 0 then 0 else l2 - 1) p

/-- The lengths array computed by `ms_t::matching_statistics` from the
pointers array (`l = 0` initially; `l = (l == 0 ? 0 : l - 1)` between
positions). -/
def matching_statistics_lengths (read : List ℕ) (char_at : ℕ → ℕ) (n : ℕ)
    (ptrs : List ℕ) : List ℕ :=
  msLengthsAux read char_at n ptrs 0 0 0

/-!
## Serialization (`ms_pointers::serialize` / `load`, lines 515-553)

`serialize` writes `terminator_position` (8 bytes), `F` (via
`my_serialize`: length-prefixed 8-byte entries), the RLBWT, then
`samples_last`, `thresholds`, `samples_start`, in that order; `load`
reads the same fields in the same order and recomputes
`r = bwt.number_of_runs()`.  The component encoders (`my_serialize`,
`sdsl::int_vector::serialize`, the rle-string and threshold formats) are
external; modelled from the spec (4.7): each component is written as a
self-delimiting little-endian stream that its loader restores exactly.
-/

/-- `w`-byte little-endian encoding of `x` (low byte first). -/
def encN : ℕ → ℕ → List ℕ
  | 0, _ => []
  | w + 1, x => x % 256 :: encN w (x / 256)

/-- 8-byte little-endian encoding. -/
def enc64 (x : ℕ) : List ℕ := encN 8 x

/-- Modelled from the spec (4.7): a length-prefixed vector of 8-byte
values (`my_serialize` / `int_vector` stream). -/
def serVec (v : List ℕ) : List ℕ :=
  enc64 v.length ++ (v.map enc64).flatten

/-- Modelled from the spec (4.7): the RLBWT stream — run count, then one
head byte and an 8-byte length per run. -/
def serRuns (b : RLBWT) : List ℕ :=
  enc64 b.runs.length ++ (b.runs.map fun p => p.1 % 256 :: enc64 p.2).flatten

/-- `ms_pointers::serialize(out)`: the six components in the source
order. -/
def msSerialize (X : MSIndex) : List ℕ :=
  enc64 X.terminator_position ++ serVec X.F ++ serRuns X.bwt ++
    serVec X.samples_last ++ serVec X.thresholds ++ serVec X.samples_start

/-- Read one 8-byte little-endian value from a stream. -/
def readN64 (bs : List ℕ) : Option (ℕ × List ℕ) :=
  if 8 ≤ bs.length then some (leVal (bs.take 8), bs.drop 8) else none

/-- Read `k` consecutive 8-byte values. -/
def readEntries : ℕ → List ℕ → Option (List ℕ × List ℕ)
  | 0, bs => some ([], bs)
  | k + 1, bs =>
    match readN64 bs with
    | none => none
    | some (x, rest) =>
      match readEntries k rest with
      | none => none
      | some (v, rest2) => some (x :: v, rest2)

/-- Read a length-prefixed vector. -/
def readVec (bs : List ℕ) : Option (List ℕ × List ℕ) :=
  match readN64 bs with
  | none => none
  | some (len, rest) => readEntries len rest

/-- Read `k` (head byte, 8-byte length) run entries. -/
def readRunEntries : ℕ → List ℕ → Option (List (ℕ × ℕ) × List ℕ)
  | 0, bs => some ([], bs)
  | k + 1, bs =>
    match bs with
    | [] => none
    | c :: rest =>
      match readN64 rest with
      | none => none
      | some (len, rest2) =>
        match readRunEntries k rest2 with
        | none => none
        | some (rs, rest3) => some ((c, len) :: rs, rest3)

/-- Read the RLBWT stream. -/
def readRuns (bs : List ℕ) : Option (List (ℕ × ℕ) × List ℕ) :=
  match readN64 bs with
  | none => none
  | some (k, rest) => readRunEntries k rest

/-- `ms_pointers::load(in)`: reads the six components in the serialize
order and recomputes `r = bwt.number_of_runs()`. -/
def msLoad (bs : List ℕ) : Option MSIndex :=
  match readN64 bs with
  | none => none
  | some (tp, b1) =>
    match readVec b1 with
    | none => none
    | some (F, b2) =>
      match readRuns b2 with
      | none => none
      | some (runs, b3) =>
        match readVec b3 with
        | none => none
        | some (sl, b4) =>
          match readVec b4 with
          | none => none
          | some (thr, b5) =>
            match readVec b5 with
            | none => none
            | some (ss, _) =>
              some { bwt := ⟨runs⟩, F := F, terminator_position := tp,
                     samples_last := sl, thresholds := thr,
                     samples_start := ss,
                     r := (RLBWT.mk runs).number_of_runs }

/-!
## Spec-side transition machines

Written from the words of spec sections 4.4 / 4.5 (and claims C2 / C3):
one sequential transition with explicit `rnk`, sentinel `thr = n + 1`,
`next_pos`, followed by the `LF` advance.  Used to settle the
refinement claims: the output of these machines, placed at pattern
position `i`, is compared with the source queries.
-/

/-- Spec 4.4 per-character PML transition, emitting the output value. -/
def pmlSpecStep (idx : PMLIndex) (s : ℕ × ℕ) (c : ℕ) : (ℕ × ℕ) × ℕ :=
  if idx.bwt.number_of_letter c = 0 then
    ((idx.LF s.1 c, 0), 0)
  else if s.1 < idx.bwt.size ∧ idx.bwt.access s.1 = c then
    ((idx.LF s.1 c, s.2 + 1), s.2 + 1)
  else
    let rnk := idx.bwt.rank s.1 c
    let thr :=
      if rnk < idx.bwt.number_of_letter c then
        idx.thresholds.getD (idx.bwt.run_of_position (idx.bwt.select rnk c)) 0
      else idx.bwt.size + 1
    let np1 :=
      if rnk < idx.bwt.number_of_letter c then idx.bwt.select rnk c else s.1
    let np2 := if s.1 < thr then idx.bwt.select (rnk - 1) c else np1
    ((idx.LF np2 c, 0), 0)

/-- The PML output sequence of the spec 4.4 machine with the value for
pattern position `i` stored at index `i` (the amended placement). -/
def pmlSpecOut (idx : PMLIndex) (P : List ℕ) : List ℕ :=
  (queryRTL (pmlSpecStep idx) (idx.bwt.size - 1, 0) P).1

/-- The PML output sequence placed as claim C2 literally states it: the
value emitted for pattern position `i` is stored at `lengths[m-1-i]`. -/
def pmlClaimC2Out (idx : PMLIndex) (P : List ℕ) : List ℕ :=
  (pmlSpecOut idx P).reverse

/-- Spec 4.5 per-character MS transition, emitting the sample. -/
def msSpecStep (idx : MSIndex) (s : ℕ × ℕ) (c : ℕ) : (ℕ × ℕ) × ℕ :=
  if idx.bwt.number_of_letter c = 0 then
    ((idx.LF s.1 c, 0), 0)
  else if s.1 < idx.bwt.size ∧ idx.bwt.access s.1 = c then
    ((idx.LF s.1 c, decWrap s.2), decWrap s.2)
  else
    let rnk := idx.bwt.rank s.1 c
    let thr :=
      if rnk < idx.bwt.number_of_letter c then
        idx.thresholds.getD (idx.bwt.run_of_position (idx.bwt.select rnk c)) 0
      else idx.bwt.size + 1
    let np1 :=
      if rnk < idx.bwt.number_of_letter c then idx.bwt.select rnk c else s.1
    let sm1 :=
      if rnk < idx.bwt.number_of_letter c then
        idx.samples_start.getD
          (idx.bwt.run_of_position (idx.bwt.select rnk c)) 0
      else s.2
    let np2 := if s.1 < thr then idx.bwt.select (rnk - 1) c else np1
    let sm2 :=
      if s.1 < thr then
        idx.samples_last.getD
          (idx.bwt.run_of_position (idx.bwt.select (rnk - 1) c)) 0
      else sm1
    ((idx.LF np2 c, sm2), sm2)

/-- The MS pointer sequence of the spec 4.5 machine with the value for
pattern position `i` stored at index `i` (the amended placement). -/
def msSpecOut (idx : MSIndex) (P : List ℕ) : List ℕ :=
  (queryRTL (msSpecStep idx) (idx.bwt.size - 1, idx.get_last_run_sample) P).1

/-- The MS pointer sequence placed as claim C3 literally states it: the
value emitted for pattern position `i` is stored at `pointers[m-1-i]`. -/
def msClaimC3Out (idx : MSIndex) (P : List ℕ) : List ℕ :=
  (msSpecOut idx P).reverse

/-- The spec 4.5 forward-sweep inner loop, with the spec's guard
phrasing (`i == 0`). -/
def sweepWhileSpec (read : List ℕ) (char_at : ℕ → ℕ) (n i p : ℕ) (g : Bool) :
    ℕ → ℕ → ℕ
  | 0, l => l
  | fuel + 1, l =>
    if i + l < read.length ∧ p + l < n ∧ g = true ∧
        read.getD (i + l) 0 = char_at (p + l) then
      sweepWhileSpec read char_at n i p g fuel (l + 1)
    else l

/-- The spec 4.5 forward sweep (`l ← max(l - 1, 0)` between positions,
guard `i == 0 or p ≠ pointers[i-1] + 1`). -/
def msLengthsSpecAux (read : List ℕ) (char_at : ℕ → ℕ) (n : ℕ) :
    List ℕ → ℕ → ℕ → ℕ → List ℕ
  | [], _, _, _ => []
  | p :: ps, i, l, prev =>
    let g : Bool := decide (i = 0 ∨ p ≠ prev + 1)
    let l2 := sweepWhileSpec read char_at n i p g read.length l
    l2 :: msLengthsSpecAux read char_at n ps (i + 1) (max (l2 - 1) 0) p

/-- The section 4.5 pseudocode result for the lengths array. -/
def spec_sweep_lengths (read : List ℕ) (char_at : ℕ → ℕ) (n : ℕ)
    (ptrs : List ℕ) : List ℕ :=
  msLengthsSpecAux read char_at n ptrs 0 0 0

/-!
## Naive reference construction of a valid index

Used to exhibit concrete validly-built indexes.  The text `T` ends with
the unique, smallest TERMINATOR byte; its BWT is read off the
lexicographically sorted rotations, and the in-memory suffix-array
samples are the values `read_samples` would store for the builder's
run-boundary SA values (`SA - 1 mod n`).
-/

/-- The rotation of `T` starting at position `i`. -/
def rotAt (T : List ℕ) (i : ℕ) : List ℕ := T.drop i ++ T.take i

/-- Lexicographic comparison of byte lists. -/
def lexLe : List ℕ → List ℕ → Bool
  | [], _ => true
  | _ :: _, [] => false
  | a :: as, b :: bs => if a < b then true else if b < a then false else lexLe as bs

/-- Insertion into a sorted list (by `le`). -/
def insertBy (le : α → α → Bool) (x : α) : List α → List α
  | [] => [x]
  | y :: ys => if le x y then x :: y :: ys else y :: insertBy le x ys

/-- Insertion sort (by `le`). -/
def sortBy (le : α → α → Bool) : List α → List α
  | [] => []
  | x :: xs => insertBy le x (sortBy le xs)

/-- The suffix (= rotation) array of `T`: rotation start positions in
lexicographic rotation order. -/
def suffixArr (T : List ℕ) : List ℕ :=
  sortBy (fun i j => lexLe (rotAt T i) (rotAt T j)) (List.range T.length)

/-- The BWT of `T`: the character preceding each suffix in sorted order. -/
def bwtOf (T : List ℕ) : List ℕ :=
  (suffixArr T).map fun i => T.getD ((i + T.length - 1) % T.length) 0

/-- Helper for `runsOf`: current head character and count. -/
def runsOfAux (c k : ℕ) : List ℕ → List (ℕ × ℕ)
  | [] => [(c, k)]
  | x :: xs => if x = c then runsOfAux c (k + 1) xs else (c, k) :: runsOfAux x 1 xs

/-- The equal-letter run decomposition of a string. -/
def runsOf : List ℕ → List (ℕ × ℕ)
  | [] => []
  | x :: xs => runsOfAux x 1 xs

/-- The first BWT position of run `k`. -/
def runStartPos (runs : List (ℕ × ℕ)) (k : ℕ) : ℕ :=
  ((runs.take k).map Prod.snd).sum

/-- The last BWT position of run `k`. -/
def runEndPos (runs : List (ℕ × ℕ)) (k : ℕ) : ℕ :=
  runStartPos runs (k + 1) - 1

/-- The in-memory sample for a builder SA value `s`: `s - 1 mod n`
(this is the `right - 1` / `n - 1` of `read_samples`). -/
def memSample (n s : ℕ) : ℕ := (s + n - 1) % n

/-- The `samples_start` array a valid build yields for text `T`. -/
def samplesStartOf (T : List ℕ) : List ℕ :=
  let runs := runsOf (bwtOf T)
  (List.range runs.length).map fun k =>
    memSample T.length ((suffixArr T).getD (runStartPos runs k) 0)

/-- The `samples_last` array a valid build yields for text `T`. -/
def samplesLastOf (T : List ℕ) : List ℕ :=
  let runs := runsOf (bwtOf T)
  (List.range runs.length).map fun k =>
    memSample T.length ((suffixArr T).getD (runEndPos runs k) 0)

/-- A valid reference text: nonempty, ending in TERMINATOR, with exactly
one byte `≤ TERMINATOR` (so the terminator is unique and smallest). -/
def validText (T : List ℕ) : Prop :=
  T ≠ [] ∧ T.getLast? = some TERMINATOR ∧
    (T.filter fun x => x ≤ TERMINATOR).length = 1

instance (T : List ℕ) : Decidable (validText T) := by
  unfold validText; infer_instance

/-- The previous run of the same character, if any. -/
def prevCRun (runs : List (ℕ × ℕ)) (k : ℕ) : Option ℕ :=
  ((List.range k).filter fun j =>
    (runs.getD j (0, 0)).1 = (runs.getD k (0, 0)).1).getLast?

/-- A valid thresholds vector (spec section 3, data-model table): one
value per run; 0 for the first run of each character, and for a later
run of `c` a position between the start of the previous `c`-run and the
start of this run. -/
def validThresholds (thr : List ℕ) (runs : List (ℕ × ℕ)) : Prop :=
  thr.length = runs.length ∧
    ((List.range runs.length).all fun k =>
      match prevCRun runs k with
      | none => thr.getD k 0 == 0
      | some j => decide (runStartPos runs j ≤ thr.getD k 0) &&
          decide (thr.getD k 0 ≤ runStartPos runs k)) = true

instance (thr : List ℕ) (runs : List (ℕ × ℕ)) :
    Decidable (validThresholds thr runs) := by
  unfold validThresholds; infer_instance

/-- The PML index a valid build (constructor with `rle = true`) produces
for text `T`, given the thresholds vector. -/
def pmlIndexOfText (T : List ℕ) (thr : List ℕ) : PMLIndex :=
  let runs := runsOf (bwtOf T)
  let ft := build_F_ (runs.map Prod.fst) (runs.map Prod.snd)
  { bwt := ⟨runs⟩, F := ft.1, terminator_position := ft.2,
    thresholds := thr, r := runs.length }

/-- `idx` is a validly built PML index for text `T`. -/
def validPMLIndex (idx : PMLIndex) (T : List ℕ) : Prop :=
  validText T ∧ validThresholds idx.thresholds (runsOf (bwtOf T)) ∧
    idx = pmlIndexOfText T idx.thresholds

instance (idx : PMLIndex) (T : List ℕ) : Decidable (validPMLIndex idx T) := by
  unfold validPMLIndex; infer_instance

/-- The MS index a valid build produces for text `T`, given the
thresholds vector. -/
def msIndexOfText (T : List ℕ) (thr : List ℕ) : MSIndex :=
  let runs := runsOf (bwtOf T)
  let ft := build_F_ (runs.map Prod.fst) (runs.map Prod.snd)
  { bwt := ⟨runs⟩, F := ft.1, terminator_position := ft.2,
    samples_last := samplesLastOf T, thresholds := thr,
    samples_start := samplesStartOf T, r := runs.length }

/-- `idx` is a validly built MS index for text `T`. -/
def validMSIndex (idx : MSIndex) (T : List ℕ) : Prop :=
  validText T ∧ validThresholds idx.thresholds (runsOf (bwtOf T)) ∧
    idx = msIndexOfText T idx.thresholds

instance (idx : MSIndex) (T : List ℕ) : Decidable (validMSIndex idx T) := by
  unfold validMSIndex; infer_instance

/-- The length of the longest substring of `P` starting at position `i`
that occurs (as a contiguous substring) in `T` — the quantity claim C1
asserts the PML query outputs. -/
def longestMatchLen (T P : List ℕ) (i : ℕ) : ℕ :=
  ((List.range (P.length - i + 1)).filter fun l =>
    decide (((P.drop i).take l) <:+: T)).foldr max 0

/-- `P` avoids the terminator byte. -/
def noTerminator (P : List ℕ) : Prop := ∀ c ∈ P, c ≠ TERMINATOR

instance (P : List ℕ) : Decidable (noTerminator P) := by
  unfold noTerminator; infer_instance

/-- Strict lexicographic comparison of byte lists (used to state that
the rotation array lists the rotations in strictly increasing order). -/
def lexLtB : List ℕ → List ℕ → Bool
  | [], [] => false
  | [], _ :: _ => true
  | _ :: _, [] => false
  | a :: as, b :: bs => if a < b then true else if b < a then false else lexLtB as bs

/-- The abstract data-model relation between a PML index and a
reference text (spec section 3): `sa` is a rotation array — a
permutation of the positions of `T` listing the rotations in strictly
increasing lexicographic order — the index BWT is the sequence of
characters preceding each rotation, and `F[c]` counts the characters
smaller than `c` (for the bytes above the folded TERMINATOR bucket).
The thresholds and the remaining fields are unconstrained: the lower
bound on the PML output does not depend on them. -/
def IndexMatchesText (idx : PMLIndex) (T : List ℕ) (sa : List ℕ) : Prop :=
  validText T ∧ (∀ x ∈ T, x < 256) ∧
  sa.Perm (List.range T.length) ∧
  sa.Pairwise (fun a b => lexLtB (rotAt T a) (rotAt T b) = true) ∧
  idx.bwt.toList = sa.map (fun s => T.getD ((s + T.length - 1) % T.length) 0) ∧
  ∀ c, c < 256 → TERMINATOR < c →
    idx.F.getD c 0 = (T.filter fun x => x < c).length

instance (idx : PMLIndex) (T sa : List ℕ) :
    Decidable (IndexMatchesText idx T sa) := by
  unfold IndexMatchesText; infer_instance

/-!
## Concrete example indexes

`[2, 3, 1]` is the text "AB$" (A = 2, B = 3, TERMINATOR = 1): its BWT
is [3, 1, 2] ("B$A"), three singleton runs, each the first run of its
character, so the only valid thresholds vector is [0, 0, 0].
-/

def exPmlIdx : PMLIndex := pmlIndexOfText [2, 3, 1] [0, 0, 0]

def exMsIdx : MSIndex := msIndexOfText [2, 3, 1] [0, 0, 0]

def exDocArr : DocArray :=
  { start_runs_doc := [5, 6, 7], end_runs_doc := [8, 9, 10] }

def exBytes15 : List ℕ := [7, 0, 0, 0, 0, 3, 0, 0, 0, 0, 9, 9, 9, 9, 9]

/-!
## Helper lemmas: the two presentations of the query loop
-/

theorem queryLoop_append (step : α → ℕ → α × β) (s : α) (xs ys : List ℕ) :
    queryLoop step s (xs ++ ys) =
      ((queryLoop step s xs).1 ++ (queryLoop step (queryLoop step s xs).2 ys).1,
        (queryLoop step (queryLoop step s xs).2 ys).2) := by
  induction xs generalizing s with
  | nil => simp [queryLoop]
  | cons c cs ih => simp [queryLoop, ih]

theorem queryLoop_length (step : α → ℕ → α × β) (s : α) (cs : List ℕ) :
    ((queryLoop step s cs).1).length = cs.length := by
  induction cs generalizing s with
  | nil => simp [queryLoop]
  | cons c cs ih => simp [queryLoop, ih]

theorem queryRTL_length (step : α → ℕ → α × β) (s : α) (cs : List ℕ) :
    ((queryRTL step s cs).1).length = cs.length := by
  induction cs with
  | nil => simp [queryRTL]
  | cons c cs ih => simp [queryRTL, ih]

/-- Running the loop over the reversed pattern and reversing the output
is the same as the right-to-left recursion over the pattern itself. -/
theorem queryLoop_reverse_eq_queryRTL (step : α → ℕ → α × β) (s : α)
    (P : List ℕ) :
    queryLoop step s P.reverse =
      (((queryRTL step s P).1).reverse, (queryRTL step s P).2) := by
  induction P with
  | nil => simp [queryLoop, queryRTL]
  | cons c cs ih =>
    simp only [List.reverse_cons, queryLoop_append, ih, queryRTL, queryLoop]

/-- If each step emits a projection of its post-state, the head of the
right-to-left output list is that projection of the final state. -/
theorem queryRTL_headD (step : α → ℕ → α × β) (proj : α → β)
    (hstep : ∀ s c, (step s c).2 = proj (step s c).1) (s : α) (c : ℕ)
    (cs : List ℕ) (d : β) :
    ((queryRTL step s (c :: cs)).1).headD d = proj (queryRTL step s (c :: cs)).2 := by
  simp [queryRTL, hstep]

/-!
## Helper lemmas: the code steps equal the spec 4.4 / 4.5 transitions
-/

theorem pmlStep_eq_spec (idx : PMLIndex) (s : ℕ × ℕ) (c : ℕ) :
    pmlStep idx s c = pmlSpecStep idx s c := by
  unfold pmlStep pmlSpecStep pmlMismatchPos
  by_cases h0 : idx.bwt.number_of_letter c = 0
  · simp [h0]
  · by_cases hM : s.1 < idx.bwt.size ∧ idx.bwt.access s.1 = c
    · simp [h0, hM]
    · by_cases h1 : idx.bwt.rank s.1 c < idx.bwt.number_of_letter c
      · simp [h0, hM, h1]
      · simp [h0, hM, h1]

theorem msStep_eq_spec (idx : MSIndex) (s : ℕ × ℕ) (c : ℕ) :
    msStep idx s c = msSpecStep idx s c := by
  unfold msStep msSpecStep msMismatch
  by_cases h0 : idx.bwt.number_of_letter c = 0
  · simp [h0]
  · by_cases hM : s.1 < idx.bwt.size ∧ idx.bwt.access s.1 = c
    · simp [h0, hM]
    · by_cases h1 : idx.bwt.rank s.1 c < idx.bwt.number_of_letter c <;>
        simp [h0, hM, h1] <;> split <;> simp

/-- The PML query in right-to-left (pattern-indexed) form. -/
theorem pml_query_eq_rtl (idx : PMLIndex) (P : List ℕ) :
    pml_query idx P = (queryRTL (pmlStep idx) (idx.bwt.size - 1, 0) P).1 := by
  unfold pml_query
  rw [queryLoop_reverse_eq_queryRTL]
  simp

/-- The MS query in right-to-left (pattern-indexed) form. -/
theorem ms_query_eq_rtl (idx : MSIndex) (P : List ℕ) :
    ms_query idx P =
      (queryRTL (msStep idx) (idx.bwt.size - 1, idx.get_last_run_sample) P).1 := by
  unfold ms_query
  rw [queryLoop_reverse_eq_queryRTL]
  simp

/-!
## Helper lemmas: the forward sweep
-/

theorem sweepWhile_eq_spec (read : List ℕ) (ca : ℕ → ℕ) (n i p : ℕ) (g : Bool) :
    ∀ fuel l, sweepWhile read ca n i p g fuel l =
      sweepWhileSpec read ca n i p g fuel l := by
  intro fuel
  induction fuel with
  | zero => intro l; rfl
  | succ f ih => intro l; simp only [sweepWhile, sweepWhileSpec, ih]

theorem sweep_decrement_eq (x : ℕ) : (if x = 0 then 0 else x - 1) = max (x - 1) 0 := by
  cases x <;> simp

theorem sweep_guard_eq (i p prev : ℕ) :
    decide (i < 1 ∨ p ≠ prev + 1) = decide (i = 0 ∨ p ≠ prev + 1) := by
  simp [Nat.lt_one_iff]

theorem msLengthsAux_eq_spec (read : List ℕ) (ca : ℕ → ℕ) (n : ℕ) :
    ∀ (ptrs : List ℕ) (i l prev : ℕ),
      msLengthsAux read ca n ptrs i l prev =
        msLengthsSpecAux read ca n ptrs i l prev := by
  intro ptrs
  induction ptrs with
  | nil => intro i l prev; rfl
  | cons p ps ih =>
    intro i l prev
    simp only [msLengthsAux, msLengthsSpecAux, sweep_guard_eq, sweepWhile_eq_spec,
      sweep_decrement_eq, ih]

/-!
## Helper lemmas: structure of the PML output values
-/

theorem pmlStep_emit_eq_state (idx : PMLIndex) (s : ℕ × ℕ) (c : ℕ) :
    (pmlStep idx s c).2 = ((pmlStep idx s c).1).2 := rfl

theorem pmlStep_emit_zero_or_succ (idx : PMLIndex) (s : ℕ × ℕ) (c : ℕ) :
    (pmlStep idx s c).2 = 0 ∨ (pmlStep idx s c).2 = s.2 + 1 := by
  simp only [pmlStep]
  split_ifs <;> simp

/-- Structural invariants of the PML output sequence (pattern-indexed):
it forms a chain where each entry is 0 or the successor of the entry to
its right, its head is the final state length, and its last entry is 0
or one more than the initial state length. -/
theorem pml_rtl_props (idx : PMLIndex) :
    ∀ (P : List ℕ) (s : ℕ × ℕ),
      List.Chain' (fun a b => a = 0 ∨ a = b + 1) ((queryRTL (pmlStep idx) s P).1) ∧
      (∀ x, ((queryRTL (pmlStep idx) s P).1).head? = some x →
        x = ((queryRTL (pmlStep idx) s P).2).2) ∧
      (∀ x, ((queryRTL (pmlStep idx) s P).1).getLast? = some x →
        x = 0 ∨ x = s.2 + 1) := by
  intro P
  induction P with
  | nil => intro s; refine ⟨List.chain'_nil, ?_, ?_⟩ <;> intro x hx <;>
      simp [queryRTL] at hx
  | cons c cs ih =>
    intro s
    obtain ⟨ihc, ihh, ihl⟩ := ih s
    refine ⟨?_, ?_, ?_⟩
    · rw [queryRTL, List.chain'_cons']
      refine ⟨?_, ihc⟩
      intro y hy
      have hy2 := ihh y hy
      rcases pmlStep_emit_zero_or_succ idx (queryRTL (pmlStep idx) s cs).2 c with h | h
      · exact Or.inl h
      · exact Or.inr (by rw [h, hy2])
    · intro x hx
      rw [queryRTL] at hx ⊢
      simp only [List.head?_cons, Option.some.injEq] at hx
      rw [← hx, pmlStep_emit_eq_state]
    · intro x hx
      rw [queryRTL] at hx
      rcases hR : (queryRTL (pmlStep idx) s cs).1 with _ | ⟨y, ys⟩
      · have hcs : cs = [] := by
          have := queryRTL_length (pmlStep idx) s cs
          rw [hR] at this
          exact List.length_eq_zero.mp this.symm
        subst hcs
        simp only [queryRTL] at hR hx ⊢
        simp only [hR, List.getLast?_singleton, Option.some.injEq] at hx
        rw [← hx]
        exact pmlStep_emit_zero_or_succ idx s c
      · rw [hR, List.getLast?_cons_cons] at hx
        exact ihl x (by rw [hR]; exact hx)

/-!
## Helper lemmas: MS sample bound (64-bit wraparound)
-/

theorem U64_pos : 0 < U64 := by decide

theorem decWrap_lt (s : ℕ) (h : s < U64) : decWrap s < U64 := by
  have h0 := U64_pos
  unfold decWrap
  split <;> omega

theorem getD_lt_of_bound (l : List ℕ) (k : ℕ) (h : ∀ x ∈ l, x < U64) :
    l.getD k 0 < U64 := by
  by_cases hk : k < l.length
  · rw [List.getD_eq_getElem l 0 hk]
    exact h _ (List.getElem_mem hk)
  · rw [List.getD_eq_default l 0 (le_of_not_lt hk)]
    exact U64_pos

theorem msMismatch_snd_lt (idx : MSIndex)
    (hsl : ∀ x ∈ idx.samples_last, x < U64)
    (hss : ∀ x ∈ idx.samples_start, x < U64)
    (pos sample c : ℕ) (h : sample < U64) :
    (msMismatch idx pos sample c).2 < U64 := by
  unfold msMismatch
  by_cases h1 : idx.bwt.rank pos c < idx.bwt.number_of_letter c <;>
    simp only [h1, if_true, if_false] <;> split
  · exact getD_lt_of_bound _ _ hsl
  · exact getD_lt_of_bound _ _ hss
  · exact getD_lt_of_bound _ _ hsl
  · exact h

theorem msStep_state_lt (idx : MSIndex)
    (hsl : ∀ x ∈ idx.samples_last, x < U64)
    (hss : ∀ x ∈ idx.samples_start, x < U64)
    (s : ℕ × ℕ) (c : ℕ) (hs : s.2 < U64) :
    ((msStep idx s c).1).2 < U64 := by
  simp only [msStep]
  split_ifs with h0 hM
  · exact U64_pos
  · exact decWrap_lt s.2 hs
  · exact msMismatch_snd_lt idx hsl hss s.1 s.2 c hs

theorem msStep_emit_eq_state (idx : MSIndex) (s : ℕ × ℕ) (c : ℕ) :
    (msStep idx s c).2 = ((msStep idx s c).1).2 := rfl

theorem msLoop_all_lt (idx : MSIndex)
    (hsl : ∀ x ∈ idx.samples_last, x < U64)
    (hss : ∀ x ∈ idx.samples_start, x < U64) :
    ∀ (cs : List ℕ) (s : ℕ × ℕ), s.2 < U64 →
      ∀ v ∈ (queryLoop (msStep idx) s cs).1, v < U64 := by
  intro cs
  induction cs with
  | nil => intro s _ v hv; simp [queryLoop] at hv
  | cons c cs ih =>
    intro s hs v hv
    simp only [queryLoop, List.mem_cons] at hv
    rcases hv with hv | hv
    · rw [hv, msStep_emit_eq_state]
      exact msStep_state_lt idx hsl hss s c hs
    · exact ih _ (msStep_state_lt idx hsl hss s c hs) v hv

/-!
## Helper lemmas: `build_F_` and the terminator run index
-/

theorem buildFCount_tp_all_gt :
    ∀ (heads ls : List ℕ) (i : ℕ) (acc : List ℕ × ℕ),
      (∀ c ∈ heads, TERMINATOR < c) →
      (buildFCount heads ls i acc).2 = acc.2 := by
  intro heads
  induction heads with
  | nil => intro ls i acc _; rfl
  | cons c hs ih =>
    intro ls i acc h
    have hc : TERMINATOR < c := h c (List.mem_cons_self c hs)
    simp only [buildFCount, if_pos hc]
    exact ih _ _ _ fun x hx => h x (List.mem_cons_of_mem c hx)

theorem buildFCount_tp_unique :
    ∀ (heads : List ℕ) (ls : List ℕ) (i : ℕ) (acc : List ℕ × ℕ) (k : ℕ),
      k < heads.length → heads.getD k 0 ≤ TERMINATOR →
      (∀ j, j < heads.length → j ≠ k → TERMINATOR < heads.getD j 0) →
      (buildFCount heads ls i acc).2 = i + k := by
  intro heads
  induction heads with
  | nil => intro ls i acc k hk; simp at hk
  | cons c hs ih =>
    intro ls i acc k hk hle hgt
    cases k with
    | zero =>
      have hc : ¬ TERMINATOR < c := by
        simpa using hle
      have hrest : ∀ x ∈ hs, TERMINATOR < x := by
        intro x hx
        obtain ⟨j, hj, rfl⟩ := List.mem_iff_getElem.mp hx
        have h1 : (j : ℕ) + 1 < (c :: hs).length := by
          simpa using Nat.succ_lt_succ hj
        have := hgt (j + 1) h1 (by omega)
        rw [List.getD_eq_getElem _ 0 h1] at this
        simpa using this
      simp only [buildFCount, if_neg hc]
      rw [buildFCount_tp_all_gt hs ls.tail (i + 1) _ hrest]
      simp
    | succ k2 =>
      have hc : TERMINATOR < c := by
        have h0 : (0 : ℕ) < (c :: hs).length := by simp
        have := hgt 0 h0 (by omega)
        simpa using this
      simp only [buildFCount, if_pos hc]
      rw [ih ls.tail (i + 1) _ k2 (by simpa using hk)
        (by simpa using hle)
        (fun j hj hne => by
          have h1 : (j : ℕ) + 1 < (c :: hs).length := by simpa using Nat.succ_lt_succ hj
          have := hgt (j + 1) h1 (by omega)
          rw [List.getD_eq_getElem _ 0 h1] at this
          rw [List.getD_eq_getElem _ 0 hj]
          simpa using this)]
      omega

theorem toList_cons (p : ℕ × ℕ) (rs : List (ℕ × ℕ)) :
    (RLBWT.mk (p :: rs)).toList =
      List.replicate p.2 p.1 ++ (RLBWT.mk rs).toList := by
  simp [RLBWT.toList]

theorem toList_getD_runStartPos :
    ∀ (runs : List (ℕ × ℕ)) (k : ℕ), k < runs.length →
      0 < (runs.getD k (0, 0)).2 →
      (RLBWT.mk runs).toList.getD (runStartPos runs k) 0 =
        (runs.getD k (0, 0)).1 := by
  intro runs
  induction runs with
  | nil => intro k hk; simp at hk
  | cons p rs ih =>
    intro k hk hpos
    cases k with
    | zero =>
      have h0 : runStartPos (p :: rs) 0 = 0 := by simp [runStartPos]
      rw [h0, toList_cons]
      have hlen : 0 < (List.replicate p.2 p.1).length := by
        simpa using hpos
      rw [List.getD_append _ _ 0 0 hlen]
      simp only [List.getD_eq_getElem _ 0 hlen, List.getElem_replicate]
      simp
    | succ k2 =>
      have hstep : runStartPos (p :: rs) (k2 + 1) = p.2 + runStartPos rs k2 := by
        simp [runStartPos]
      rw [hstep, toList_cons]
      have hlen : (List.replicate p.2 p.1).length ≤ p.2 + runStartPos rs k2 := by
        simp
      rw [List.getD_append_right _ _ 0 _ hlen]
      simp only [List.length_replicate, Nat.add_sub_cancel_left]
      exact ih k2 (by simpa using hk) (by simpa using hpos)

/-!
## Helper lemmas: `read_samples`
-/

theorem samplePairs_length : ∀ (k : ℕ) (bs : List ℕ),
    (samplePairs k bs).length = k := by
  intro k
  induction k with
  | zero => intro bs; rfl
  | succ k2 ih => intro bs; simp [samplePairs, ih]

/-!
## Helper lemmas: serialization round trip
-/

theorem encN_length : ∀ (w x : ℕ), (encN w x).length = w := by
  intro w
  induction w with
  | zero => intro x; rfl
  | succ w2 ih => intro x; simp [encN, ih]

theorem leVal_encN : ∀ (w x : ℕ), x < 256 ^ w → leVal (encN w x) = x := by
  intro w
  induction w with
  | zero => intro x hx; interval_cases x; rfl
  | succ w2 ih =>
    intro x hx
    have hdiv : x / 256 < 256 ^ w2 := by
      rw [Nat.div_lt_iff_lt_mul (by norm_num)]
      calc x < 256 ^ (w2 + 1) := hx
      _ = 256 ^ w2 * 256 := by ring
    simp only [encN, leVal, ih (x / 256) hdiv]
    exact Nat.mod_add_div x 256

theorem U64_eq_pow : U64 = 256 ^ 8 := by norm_num [U64]

theorem readN64_enc (x : ℕ) (hx : x < U64) (rest : List ℕ) :
    readN64 (enc64 x ++ rest) = some (x, rest) := by
  have hlen : (enc64 x).length = 8 := encN_length 8 x
  unfold readN64
  rw [if_pos (by simp [hlen])]
  rw [List.take_left' hlen, List.drop_left' hlen]
  rw [show leVal (enc64 x) = x from
    leVal_encN 8 x (by rw [← U64_eq_pow]; exact hx)]

theorem readEntries_ser : ∀ (v : List ℕ) (rest : List ℕ),
    (∀ x ∈ v, x < U64) →
    readEntries v.length ((v.map enc64).flatten ++ rest) = some (v, rest) := by
  intro v
  induction v with
  | nil => intro rest _; rfl
  | cons x xs ih =>
    intro rest h
    have hx : x < U64 := h x (List.mem_cons_self x xs)
    simp only [List.length_cons, List.map_cons, List.flatten_cons, readEntries,
      List.append_assoc, readN64_enc x hx]
    rw [ih rest fun y hy => h y (List.mem_cons_of_mem x hy)]

theorem readVec_ser (v : List ℕ) (rest : List ℕ) (hlen : v.length < U64)
    (h : ∀ x ∈ v, x < U64) : readVec (serVec v ++ rest) = some (v, rest) := by
  unfold readVec serVec
  rw [List.append_assoc, readN64_enc v.length hlen _]
  exact readEntries_ser v rest h

theorem readRunEntries_ser : ∀ (rs : List (ℕ × ℕ)) (rest : List ℕ),
    (∀ p ∈ rs, p.1 < 256 ∧ p.2 < U64) →
    readRunEntries rs.length
        ((rs.map fun p => p.1 % 256 :: enc64 p.2).flatten ++ rest) =
      some (rs, rest) := by
  intro rs
  induction rs with
  | nil => intro rest _; rfl
  | cons p ps ih =>
    intro rest h
    obtain ⟨h1, h2⟩ := h p (List.mem_cons_self p ps)
    simp only [List.length_cons, List.map_cons, List.flatten_cons, readRunEntries,
      List.cons_append, List.append_assoc, readN64_enc p.2 h2]
    rw [ih rest fun q hq => h q (List.mem_cons_of_mem p hq)]
    rw [Nat.mod_eq_of_lt h1]

theorem readRuns_ser (b : RLBWT) (rest : List ℕ) (hlen : b.runs.length < U64)
    (h : ∀ p ∈ b.runs, p.1 < 256 ∧ p.2 < U64) :
    readRuns (serRuns b ++ rest) = some (b.runs, rest) := by
  unfold readRuns serRuns
  rw [List.append_assoc, readN64_enc b.runs.length hlen _]
  exact readRunEntries_ser b.runs rest h

theorem msLoad_msSerialize (X : MSIndex)
    (h1 : X.terminator_position < U64)
    (h2 : X.F.length < U64) (h3 : ∀ x ∈ X.F, x < U64)
    (h4 : X.bwt.runs.length < U64)
    (h5 : ∀ p ∈ X.bwt.runs, p.1 < 256 ∧ p.2 < U64)
    (h6 : X.samples_last.length < U64) (h7 : ∀ x ∈ X.samples_last, x < U64)
    (h8 : X.thresholds.length < U64) (h9 : ∀ x ∈ X.thresholds, x < U64)
    (h10 : X.samples_start.length < U64)
    (h11 : ∀ x ∈ X.samples_start, x < U64) :
    msLoad (msSerialize X) = some { X with r := X.bwt.number_of_runs } := by
  have hser : msSerialize X = enc64 X.terminator_position ++ (serVec X.F ++
      (serRuns X.bwt ++ (serVec X.samples_last ++
        (serVec X.thresholds ++ (serVec X.samples_start ++ []))))) := by
    simp [msSerialize, List.append_assoc]
  rw [hser]
  unfold msLoad
  simp only [readN64_enc X.terminator_position h1,
    readVec_ser X.F _ h2 h3, readRuns_ser X.bwt _ h4 h5,
    readVec_ser X.samples_last _ h6 h7, readVec_ser X.thresholds _ h8 h9,
    readVec_ser X.samples_start _ h10 h11]

/-!
## Helper lemmas: document-aware queries
-/

theorem pmlDocStep_emit (idx : PMLIndex) (da : DocArray) (s : DocState) (c : ℕ) :
    (pmlDocStep idx da s c).2 =
      (((pmlDocStep idx da s c).1).val, ((pmlDocStep idx da s c).1).doc) := rfl

theorem msDocStep_emit (idx : MSIndex) (da : DocArray) (s : DocState) (c : ℕ) :
    (msDocStep idx da s c).2 =
      (((msDocStep idx da s c).1).val, ((msDocStep idx da s c).1).doc) := rfl

theorem pmlDocStep_absent_doc (idx : PMLIndex) (da : DocArray) (s : DocState)
    (c : ℕ) (h : idx.bwt.number_of_letter c = 0) :
    ((pmlDocStep idx da s c).2).2 = s.doc := by
  simp [pmlDocStep, h]

theorem msDocStep_absent_doc (idx : MSIndex) (da : DocArray) (s : DocState)
    (c : ℕ) (h : idx.bwt.number_of_letter c = 0) :
    ((msDocStep idx da s c).2).2 =
      da.start_runs_doc.getD (idx.bwt.run_of_position 0) 0 := by
  simp [msDocStep, h]

theorem pmlDoc_head (idx : PMLIndex) (da : DocArray) (s : DocState)
    (c2 : ℕ) (cs2 : List ℕ) :
    ((((queryRTL (pmlDocStep idx da) s (c2 :: cs2)).1).map Prod.snd).getD 0 0) =
      ((queryRTL (pmlDocStep idx da) s (c2 :: cs2)).2).doc := by
  simp [queryRTL, pmlDocStep_emit]

/-- In the document-aware PML query, a position whose character is
absent from the BWT reports the same document id as the position to its
right (the initial `curr_doc_id`, i.e. the caller state, at the last
position). -/
theorem pmlDoc_absent (idx : PMLIndex) (da : DocArray) (s : DocState) :
    ∀ (P : List ℕ) (i : ℕ), i < P.length →
      idx.bwt.number_of_letter (P.getD i 0) = 0 →
      (((queryRTL (pmlDocStep idx da) s P).1).map Prod.snd).getD i 0 =
        if i + 1 < P.length then
          (((queryRTL (pmlDocStep idx da) s P).1).map Prod.snd).getD (i + 1) 0
        else s.doc := by
  intro P
  induction P with
  | nil => intro i hi; simp at hi
  | cons c cs ih =>
    intro i hi hc
    cases i with
    | zero =>
      have hc0 : idx.bwt.number_of_letter c = 0 := by simpa using hc
      cases cs with
      | nil =>
        simp only [queryRTL, List.map_cons, List.getD_cons_zero]
        rw [pmlDocStep_absent_doc idx da _ c hc0]
        simp [queryRTL]
      | cons c2 cs2 =>
        have hlt : (0 : ℕ) + 1 < (c :: c2 :: cs2).length := by simp
        rw [if_pos hlt]
        simp only [queryRTL, List.map_cons, List.getD_cons_zero,
          List.getD_cons_succ]
        rw [pmlDocStep_absent_doc idx da _ c hc0]
        exact (pmlDoc_head idx da s c2 cs2).symm
    | succ j =>
      have hj : j < cs.length := by simpa using hi
      have hcj : idx.bwt.number_of_letter (cs.getD j 0) = 0 := by
        simpa using hc
      have := ih j hj hcj
      simp only [queryRTL, List.map_cons, List.getD_cons_succ]
      rw [this]
      have hiff : j + 1 + 1 < (c :: cs).length ↔ j + 1 < cs.length := by
        simp
      by_cases hcase : j + 1 < cs.length
      · rw [if_pos hcase, if_pos (hiff.mpr hcase)]
      · rw [if_neg hcase, if_neg (fun hcon => hcase (hiff.mp hcon))]

/-- In the document-aware MS query, a position whose character is absent
from the BWT reports `start_runs_doc[run_of_position(0)]`. -/
theorem msDoc_absent (idx : MSIndex) (da : DocArray) (s : DocState) :
    ∀ (P : List ℕ) (i : ℕ), i < P.length →
      idx.bwt.number_of_letter (P.getD i 0) = 0 →
      (((queryRTL (msDocStep idx da) s P).1).map Prod.snd).getD i 0 =
        da.start_runs_doc.getD (idx.bwt.run_of_position 0) 0 := by
  intro P
  induction P with
  | nil => intro i hi; simp at hi
  | cons c cs ih =>
    intro i hi hc
    cases i with
    | zero =>
      have hc0 : idx.bwt.number_of_letter c = 0 := by simpa using hc
      simp only [queryRTL, List.map_cons, List.getD_cons_zero]
      exact msDocStep_absent_doc idx da _ c hc0
    | succ j =>
      have hj : j < cs.length := by simpa using hi
      have hcj : idx.bwt.number_of_letter (cs.getD j 0) = 0 := by
        simpa using hc
      simp only [queryRTL, List.map_cons, List.getD_cons_succ]
      exact ih j hj hcj

/-- The document sequence of the document-aware PML query, in
pattern-indexed form. -/
theorem pml_doc_query_snd (idx : PMLIndex) (da : DocArray) (P : List ℕ) :
    (pml_doc_query idx da P).2 =
      ((queryRTL (pmlDocStep idx da)
        { pos := idx.bwt.size - 1, val := 0,
          doc := da.end_runs_doc.getD (idx.bwt.number_of_runs - 1) 0 }
        P).1).map Prod.snd := by
  unfold pml_doc_query
  rw [queryLoop_reverse_eq_queryRTL]
  simp

/-- The document sequence of the document-aware MS query, in
pattern-indexed form. -/
theorem ms_doc_query_snd (idx : MSIndex) (da : DocArray) (P : List ℕ) :
    (ms_doc_query idx da P).2 =
      ((queryRTL (msDocStep idx da)
        { pos := idx.bwt.size - 1, val := idx.get_last_run_sample,
          doc := da.end_runs_doc.getD (idx.bwt.number_of_runs - 1) 0 }
        P).1).map Prod.snd := by
  unfold ms_doc_query
  rw [queryLoop_reverse_eq_queryRTL]
  simp

/-!
## Helper lemmas: strict lexicographic comparison
-/

theorem lexLtB_irrefl : ∀ a : List ℕ, lexLtB a a = false := by
  intro a
  induction a with
  | nil => rfl
  | cons x xs ih => simp [lexLtB, ih]

theorem lexLtB_asymm : ∀ a b : List ℕ, lexLtB a b = true → lexLtB b a = false := by
  intro a
  induction a with
  | nil =>
    intro b hb
    cases b with
    | nil => simp [lexLtB] at hb
    | cons y ys => rfl
  | cons x xs ih =>
    intro b hb
    cases b with
    | nil => simp [lexLtB] at hb
    | cons y ys =>
      simp only [lexLtB] at hb ⊢
      rcases lt_trichotomy x y with h | h | h
      · simp [h, Nat.not_lt_of_lt h]
      · subst h
        simp only [lt_irrefl, if_false] at hb ⊢
        exact ih ys hb
      · simp [h, Nat.not_lt_of_lt h] at hb

theorem lexLtB_cons (x y : ℕ) (xs ys : List ℕ) :
    lexLtB (x :: xs) (y :: ys) =
      (decide (x < y) || (decide (x = y) && lexLtB xs ys)) := by
  simp only [lexLtB]
  rcases lt_trichotomy x y with h | h | h
  · simp [h]
  · simp [h]
  · simp [h, Nat.not_lt_of_lt h, Nat.ne_of_gt h]

theorem lexLtB_take_mono : ∀ (k : ℕ) (a b : List ℕ),
    lexLtB (a.take k) (b.take k) = true → lexLtB a b = true := by
  intro k
  induction k with
  | zero => intro a b h; simp [lexLtB] at h
  | succ k2 ih =>
    intro a b h
    cases a with
    | nil =>
      cases b with
      | nil => simpa using h
      | cons y ys => rfl
    | cons x xs =>
      cases b with
      | nil => simp [lexLtB] at h
      | cons y ys =>
        simp only [List.take_succ_cons, lexLtB] at h ⊢
        rcases lt_trichotomy x y with hxy | hxy | hxy
        · simp [hxy]
        · subst hxy
          simp only [lt_irrefl, if_false] at h ⊢
          exact ih xs ys h
        · simp [hxy, Nat.not_lt_of_lt hxy] at h

theorem lexLtB_take_of_lt : ∀ (k : ℕ) (a b : List ℕ), lexLtB a b = true →
    a.take k = b.take k ∨ lexLtB (a.take k) (b.take k) = true := by
  intro k
  induction k with
  | zero => intro a b _; left; rfl
  | succ k2 ih =>
    intro a b h
    cases a with
    | nil =>
      cases b with
      | nil => simp [lexLtB] at h
      | cons y ys => right; rfl
    | cons x xs =>
      cases b with
      | nil => simp [lexLtB] at h
      | cons y ys =>
        simp only [List.take_succ_cons]
        simp only [lexLtB] at h
        rcases lt_trichotomy x y with hxy | hxy | hxy
        · right
          simp [lexLtB, hxy]
        · subst hxy
          simp only [lt_irrefl, if_false] at h
          rcases ih xs ys h with h2 | h2
          · left; rw [h2]
          · right
            simp [lexLtB, h2]
        · simp [hxy, Nat.not_lt_of_lt hxy] at h

/-!
## Helper lemmas: `longestMatchLen`
-/

theorem le_foldr_max : ∀ (l : List ℕ) (x : ℕ), x ∈ l → x ≤ l.foldr max 0 := by
  intro l
  induction l with
  | nil => intro x hx; simp at hx
  | cons y ys ih =>
    intro x hx
    rcases List.mem_cons.mp hx with h | h
    · subst h; exact le_max_left _ _
    · exact le_trans (ih x h) (le_max_right _ _)

theorem longestMatchLen_ge (T P : List ℕ) (i l : ℕ) (hl : i + l ≤ P.length)
    (hinf : ((P.drop i).take l) <:+: T) : l ≤ longestMatchLen T P i := by
  unfold longestMatchLen
  apply le_foldr_max
  apply List.mem_filter.mpr
  constructor
  · apply List.mem_range.mpr
    omega
  · simpa using hinf

theorem longestMatchLen_cons_succ (T : List ℕ) (c : ℕ) (cs : List ℕ) (j : ℕ) :
    longestMatchLen T (c :: cs) (j + 1) = longestMatchLen T cs j := by
  unfold longestMatchLen
  simp

/-!
## Helper lemmas: rotations of the reference text
-/

theorem rotAt_length (T : List ℕ) (x : ℕ) : (rotAt T x).length = T.length := by
  unfold rotAt
  rcases le_total x T.length with h | h
  · simp [min_eq_left h]
    omega
  · simp [min_eq_right h]
    omega

theorem rotAt_getD (T : List ℕ) (x j : ℕ) (hj : j < T.length - x) :
    (rotAt T x).getD j 0 = T.getD (x + j) 0 := by
  unfold rotAt
  rw [List.getD_append _ _ 0 j (by simp; omega)]
  rw [List.getD_eq_getElem _ 0 (by simp; omega),
    List.getD_eq_getElem _ 0 (by omega : x + j < T.length)]
  simp [List.getElem_drop]

theorem rotAt_zero (T : List ℕ) : rotAt T 0 = T := by
  simp [rotAt]

/-- The rotation one step to the left prepends the preceding character
and keeps the first `n - 1` characters. -/
theorem rotAt_pred (T : List ℕ) (x : ℕ) (hx : x < T.length) :
    rotAt T ((x + T.length - 1) % T.length) =
      T.getD ((x + T.length - 1) % T.length) 0 ::
        (rotAt T x).take (T.length - 1) := by
  have hn : 0 < T.length := by omega
  rcases Nat.eq_zero_or_pos x with hx0 | hx1
  · subst hx0
    have hy : (0 + T.length - 1) % T.length = T.length - 1 := by
      rw [Nat.mod_eq_of_lt (by omega)]
      omega
    rw [hy, rotAt_zero]
    unfold rotAt
    rw [List.drop_eq_getElem_cons (by omega : T.length - 1 < T.length)]
    have : T.length - 1 + 1 = T.length := by omega
    rw [this, List.drop_length]
    rw [List.getD_eq_getElem _ 0 (by omega : T.length - 1 < T.length)]
    simp
  · have hy : (x + T.length - 1) % T.length = x - 1 := by
      have h1 : x + T.length - 1 = (x - 1) + T.length := by omega
      rw [h1, Nat.add_mod_right, Nat.mod_eq_of_lt (by omega)]
    rw [hy]
    unfold rotAt
    rw [List.drop_eq_getElem_cons (by omega : x - 1 < T.length)]
    have hx1' : x - 1 + 1 = x := by omega
    rw [hx1']
    rw [List.getD_eq_getElem _ 0 (by omega : x - 1 < T.length)]
    have hsplit : T.length - 1 = (T.drop x).length + (x - 1) := by
      simp
      omega
    rw [hsplit, List.take_append]
    rw [List.take_take, min_eq_left (by omega : x - 1 ≤ x)]
    simp

theorem rotAt_cons (T : List ℕ) (x : ℕ) (hx : x < T.length) :
    rotAt T x = T.getD x 0 ::
      (rotAt T ((x + 1) % T.length)).take (T.length - 1) := by
  have hn : 0 < T.length := by omega
  have harith : ((x + 1) % T.length + T.length - 1) % T.length = x := by
    by_cases h : x + 1 < T.length
    · rw [Nat.mod_eq_of_lt h]
      have h1 : x + 1 + T.length - 1 = x + T.length := by omega
      rw [h1, Nat.add_mod_right, Nat.mod_eq_of_lt hx]
    · have h1 : x + 1 = T.length := by omega
      have h2 : (x + 1) % T.length = 0 := by rw [h1, Nat.mod_self]
      rw [h2]
      have h3 : 0 + T.length - 1 = T.length - 1 := by omega
      rw [h3, Nat.mod_eq_of_lt (by omega)]
      omega
  have := rotAt_pred T ((x + 1) % T.length) (Nat.mod_lt _ hn)
  rw [harith] at this
  exact this

/-!
## Helper lemmas: the terminator position inside the text
-/

theorem countP_range_getD (l : List ℕ) (p : ℕ → Bool) :
    (List.range l.length).countP (fun t => p (l.getD t 0)) = l.countP p := by
  induction l with
  | nil => rfl
  | cons x xs ih =>
    rw [List.length_cons, List.range_succ_eq_map, List.countP_cons,
      List.countP_map, List.countP_cons]
    have h1 : ((fun t => p ((x :: xs).getD t 0)) ∘ (· + 1)) =
        fun t => p (xs.getD t 0) := by
      funext t
      simp
    rw [h1, ih]
    simp [List.getD_cons_zero]

theorem two_le_length_of_two_mem (l : List ℕ) (a b : ℕ) (ha : a ∈ l)
    (hb : b ∈ l) (hab : a ≠ b) : 2 ≤ l.length := by
  cases l with
  | nil => simp at ha
  | cons x xs =>
    cases xs with
    | nil =>
      simp at ha hb
      omega
    | cons y ys => simp

theorem validText_pos (T : List ℕ) (hT : validText T) : 0 < T.length :=
  List.length_pos.mpr hT.1

theorem validText_last (T : List ℕ) (hT : validText T) :
    T.getD (T.length - 1) 0 = TERMINATOR := by
  have hn := validText_pos T hT
  have h := hT.2.1
  rw [List.getLast?_eq_getElem? T] at h
  rw [List.getD_eq_getElem _ 0 (by omega : T.length - 1 < T.length)]
  rw [List.getElem?_eq_getElem (by omega : T.length - 1 < T.length)] at h
  exact Option.some.inj h

theorem validText_term_unique (T : List ℕ) (hT : validText T) :
    ∀ p, p < T.length → T.getD p 0 ≤ TERMINATOR → p = T.length - 1 := by
  intro p hp hple
  by_contra hne
  have hn := validText_pos T hT
  have hcnt : T.countP (fun x => decide (x ≤ TERMINATOR)) = 1 := by
    rw [List.countP_eq_length_filter]
    exact hT.2.2
  have hrange : (List.range T.length).countP
      (fun t => decide (T.getD t 0 ≤ TERMINATOR)) = 1 :=
    (countP_range_getD T (fun x => decide (x ≤ TERMINATOR))).trans hcnt
  have hmem1 : p ∈ (List.range T.length).filter
      (fun t => decide (T.getD t 0 ≤ TERMINATOR)) := by
    apply List.mem_filter.mpr
    exact ⟨List.mem_range.mpr hp, decide_eq_true hple⟩
  have hmem2 : T.length - 1 ∈ (List.range T.length).filter
      (fun t => decide (T.getD t 0 ≤ TERMINATOR)) := by
    apply List.mem_filter.mpr
    refine ⟨List.mem_range.mpr (by omega), ?_⟩
    have hlast := validText_last T hT
    exact decide_eq_true (by rw [hlast])
  have h2 := two_le_length_of_two_mem _ p (T.length - 1) hmem1 hmem2 hne
  rw [← List.countP_eq_length_filter] at h2
  omega

theorem validText_gt_term (T : List ℕ) (hT : validText T) (c : ℕ) (hc : c ∈ T)
    (hne : c ≠ TERMINATOR) : TERMINATOR < c := by
  by_contra h
  push_neg at h
  obtain ⟨p, hp, rfl⟩ := List.mem_iff_getElem.mp hc
  have hgd : T.getD p 0 = T[p] := List.getD_eq_getElem T 0 hp
  have := validText_term_unique T hT p hp (by rw [hgd]; exact h)
  apply hne
  rw [← hgd, this]
  exact validText_last T hT

/-!
## Helper lemmas: terminator-free prefixes of rotations
-/

theorem getD_take_eq (l : List ℕ) (n k : ℕ) (hk : k < n) (hkl : k < l.length) :
    (l.take n).getD k 0 = l.getD k 0 := by
  rw [List.getD_eq_getElem _ 0 (by simp; exact ⟨hk, hkl⟩),
    List.getD_eq_getElem _ 0 hkl]
  simp [List.getElem_take]

theorem prefix_getD (w v : List ℕ) (hw : w <+: v) (k : ℕ) (hk : k < w.length) :
    w.getD k 0 = v.getD k 0 := by
  have hkv : k < v.length := lt_of_lt_of_le hk hw.length_le
  rw [List.prefix_iff_eq_take.mp hw]
  rw [List.getD_eq_getElem _ 0 (by simp; exact ⟨hk, hkv⟩),
    List.getD_eq_getElem _ 0 hkv]
  simp [List.getElem_take]

theorem prefix_noTerm_length (T : List ℕ) (hT : validText T) (x : ℕ)
    (hx : x < T.length) (w : List ℕ) (hw : w <+: rotAt T x)
    (hnt : noTerminator w) : w.length ≤ T.length - 1 - x := by
  by_contra h
  push_neg at h
  have hk : T.length - 1 - x < w.length := h
  have hg : w.getD (T.length - 1 - x) 0 = (rotAt T x).getD (T.length - 1 - x) 0 :=
    prefix_getD w _ hw _ hk
  rw [rotAt_getD T x _ (by omega)] at hg
  have hx2 : x + (T.length - 1 - x) = T.length - 1 := by omega
  rw [hx2, validText_last T hT] at hg
  have hmem : w.getD (T.length - 1 - x) 0 ∈ w := by
    rw [List.getD_eq_getElem _ 0 hk]
    exact List.getElem_mem hk
  exact hnt _ hmem hg

theorem prefix_rot_infix (T : List ℕ) (hT : validText T) (x : ℕ)
    (hx : x < T.length) (w : List ℕ) (hw : w <+: rotAt T x)
    (hnt : noTerminator w) : w <:+: T := by
  have hlen := prefix_noTerm_length T hT x hx w hw hnt
  have hpre : w <+: T.drop x := by
    have h1 : w = (T.drop x).take w.length := by
      conv_lhs => rw [List.prefix_iff_eq_take.mp hw]
      unfold rotAt
      rw [List.take_append_of_le_length (by simp; omega)]
    rw [h1]
    exact List.take_prefix _ _
  exact hpre.isInfix.trans (List.drop_suffix x T).isInfix

/-- Dropping the last character is injective on the rotations of a
valid text: the first `n - 1` characters already locate the terminator. -/
theorem rot_take_inj (T : List ℕ) (hT : validText T) :
    ∀ y s, s < y → y < T.length →
      (rotAt T y).take (T.length - 1) = (rotAt T s).take (T.length - 1) →
      False := by
  intro y s hsy hy h
  have hn := validText_pos T hT
  have hk : T.length - 1 - y < T.length - 1 := by omega
  have hgy : (rotAt T y).getD (T.length - 1 - y) 0 = TERMINATOR := by
    rw [rotAt_getD T y _ (by omega)]
    have : y + (T.length - 1 - y) = T.length - 1 := by omega
    rw [this]
    exact validText_last T hT
  have htake : ((rotAt T y).take (T.length - 1)).getD (T.length - 1 - y) 0 =
      ((rotAt T s).take (T.length - 1)).getD (T.length - 1 - y) 0 := by rw [h]
  have hy1 : ((rotAt T y).take (T.length - 1)).getD (T.length - 1 - y) 0 =
      (rotAt T y).getD (T.length - 1 - y) 0 :=
    getD_take_eq _ _ _ hk (by rw [rotAt_length]; omega)
  have hs1 : ((rotAt T s).take (T.length - 1)).getD (T.length - 1 - y) 0 =
      (rotAt T s).getD (T.length - 1 - y) 0 :=
    getD_take_eq _ _ _ hk (by rw [rotAt_length]; omega)
  have hgs : (rotAt T s).getD (T.length - 1 - y) 0 = TERMINATOR := by
    rw [← hs1, ← htake, hy1, hgy]
  rw [rotAt_getD T s _ (by omega)] at hgs
  have := validText_term_unique T hT (s + (T.length - 1 - y)) (by omega)
    (by rw [hgs])
  omega

/-!
## Helper lemmas: counting in sorted lists
-/

theorem countP_or_disjoint {α : Type} (p q : α → Bool) :
    ∀ (l : List α), (∀ x ∈ l, ¬(p x = true ∧ q x = true)) →
      l.countP (fun x => p x || q x) = l.countP p + l.countP q := by
  intro l
  induction l with
  | nil => intro _; rfl
  | cons x xs ih =>
    intro h
    rw [List.countP_cons, List.countP_cons, List.countP_cons,
      ih fun y hy => h y (List.mem_cons_of_mem x hy)]
    have := h x (List.mem_cons_self x xs)
    cases hp : p x <;> cases hq : q x <;> simp [hp, hq] at this ⊢ <;> omega

theorem sorted_index_countP {α : Type} (lt : α → α → Bool)
    (hasym : ∀ a b, lt a b = true → lt b a = false) :
    ∀ (l : List α) (j : ℕ) (d : α),
      l.Pairwise (fun a b => lt a b = true) → j < l.length →
      l.countP (fun y => lt y (l.getD j d)) = j := by
  intro l
  induction l with
  | nil => intro j d _ hj; simp at hj
  | cons x xs ih =>
    intro j d hpw hj
    have hx : ∀ y ∈ xs, lt x y = true := List.pairwise_cons.mp hpw |>.1
    have hxs := List.pairwise_cons.mp hpw |>.2
    cases j with
    | zero =>
      rw [List.getD_cons_zero, List.countP_cons]
      have hxx : lt x x = false := by
        cases hxx : lt x x
        · rfl
        · have := hasym x x hxx
          rw [this] at hxx
          exact absurd hxx (by simp)
      rw [List.countP_eq_zero.mpr fun y hy => by simp [hasym x y (hx y hy)]]
      simp [hxx]
    | succ j2 =>
      rw [List.getD_cons_succ, List.countP_cons]
      have hj2 : j2 < xs.length := by simpa using hj
      have hmem : xs.getD j2 d ∈ xs := by
        rw [List.getD_eq_getElem _ d hj2]
        exact List.getElem_mem hj2
      rw [ih j2 d hxs hj2, if_pos (hx _ hmem)]

theorem sorted_countP_and_before {α : Type} (lt : α → α → Bool)
    (hasym : ∀ a b, lt a b = true → lt b a = false) (p : α → Bool) :
    ∀ (l : List α) (j : ℕ) (d : α),
      l.Pairwise (fun a b => lt a b = true) → j < l.length →
      l.countP (fun y => p y && lt y (l.getD j d)) = (l.take j).countP p := by
  intro l
  induction l with
  | nil => intro j d _ hj; simp at hj
  | cons x xs ih =>
    intro j d hpw hj
    have hx : ∀ y ∈ xs, lt x y = true := List.pairwise_cons.mp hpw |>.1
    have hxs := List.pairwise_cons.mp hpw |>.2
    cases j with
    | zero =>
      rw [List.getD_cons_zero, List.countP_cons]
      have hxx : lt x x = false := by
        cases hxx : lt x x
        · rfl
        · have := hasym x x hxx
          rw [this] at hxx
          exact absurd hxx (by simp)
      rw [List.countP_eq_zero.mpr fun y hy => by simp [hasym x y (hx y hy)]]
      simp [hxx]
    | succ j2 =>
      rw [List.getD_cons_succ, List.countP_cons]
      have hj2 : j2 < xs.length := by simpa using hj
      have hmem : xs.getD j2 d ∈ xs := by
        rw [List.getD_eq_getElem _ d hj2]
        exact List.getElem_mem hj2
      rw [ih j2 d hxs hj2, List.take_succ_cons, List.countP_cons, hx _ hmem]
      simp [Nat.add_comm]

theorem range_map_succ_mod (n : ℕ) :
    (List.range n).map (fun t => (t + 1) % n) = (List.range n).rotate 1 := by
  apply List.ext_getElem
  · simp
  · intro i h1 h2
    rw [List.getElem_map, List.getElem_range, List.getElem_rotate]
    rw [List.getElem_range]
    congr 1
    simp

theorem countP_range_shift (n : ℕ) (q : ℕ → Bool) :
    (List.range n).countP (fun t => q ((t + 1) % n)) =
      (List.range n).countP q := by
  have h1 : ((List.range n).map (fun t => (t + 1) % n)).countP q =
      (List.range n).countP (fun t => q ((t + 1) % n)) :=
    List.countP_map q _ _
  rw [← h1, range_map_succ_mod n]
  exact (List.rotate_perm _ 1).countP_eq q

/-!
## Helper lemmas: the LF mapping moves to the left rotation
-/

theorem succ_mod_pred (n y : ℕ) (hy : y < n) :
    ((y + 1) % n + n - 1) % n = y := by
  by_cases h : y + 1 < n
  · rw [Nat.mod_eq_of_lt h]
    have h1 : y + 1 + n - 1 = y + n := by omega
    rw [h1, Nat.add_mod_right, Nat.mod_eq_of_lt hy]
  · have h1 : y + 1 = n := by omega
    have h2 : (y + 1) % n = 0 := by rw [h1, Nat.mod_self]
    rw [h2]
    have h3 : 0 + n - 1 = n - 1 := by omega
    rw [h3, Nat.mod_eq_of_lt (by omega)]
    omega

/-- Comparing two rotations without their last characters is the same
as comparing the full rotations: the first `n - 1` characters already
distinguish distinct rotations of a valid text. -/
theorem lexLtB_rot_take (T : List ℕ) (hT : validText T) (y s : ℕ)
    (hy : y < T.length) (hs : s < T.length) :
    lexLtB ((rotAt T y).take (T.length - 1)) ((rotAt T s).take (T.length - 1)) =
      lexLtB (rotAt T y) (rotAt T s) := by
  by_cases heq : y = s
  · subst heq
    rw [lexLtB_irrefl, lexLtB_irrefl]
  · cases hR : lexLtB (rotAt T y) (rotAt T s)
    · cases hL : lexLtB ((rotAt T y).take (T.length - 1))
        ((rotAt T s).take (T.length - 1))
      · rfl
      · have := lexLtB_take_mono (T.length - 1) _ _ hL
        rw [hR] at this
        exact absurd this (by simp)
    · rcases lexLtB_take_of_lt (T.length - 1) _ _ hR with h2 | h2
      · exfalso
        rcases Nat.lt_or_ge s y with hlt | hge
        · exact rot_take_inj T hT y s hlt hy h2
        · have hlt : y < s := by omega
          exact rot_take_inj T hT s y hlt hs h2.symm
      · exact h2

/-- The LF step of the FM index: for a BWT position `i` holding
character `c`, `F[c] + rank(i, c)` is the index of the row whose
rotation is the left rotation of row `i`'s — i.e. the row of the text
position one before `sa[i]`. -/
theorem lf_row (idx : PMLIndex) (T sa : List ℕ)
    (hm : IndexMatchesText idx T sa) (i : ℕ) (hi : i < T.length) (c : ℕ)
    (hc : idx.bwt.toList.getD i 0 = c) (hcT : TERMINATOR < c) :
    idx.F.getD c 0 + idx.bwt.rank i c < T.length ∧
    sa.getD (idx.F.getD c 0 + idx.bwt.rank i c) 0 =
      (sa.getD i 0 + T.length - 1) % T.length := by
  obtain ⟨hT, h256, hperm, hsort, hbwt, hF⟩ := hm
  have hn : 0 < T.length := validText_pos T hT
  have hsalen : sa.length = T.length := by
    rw [hperm.length_eq, List.length_range]
  have him : i < sa.length := by omega
  have hs : sa.getD i 0 < T.length := by
    have hmem : sa.getD i 0 ∈ sa := by
      rw [List.getD_eq_getElem sa 0 him]
      exact List.getElem_mem him
    have := hperm.mem_iff.mp hmem
    exact List.mem_range.mp this
  have htstar : (sa.getD i 0 + T.length - 1) % T.length < T.length :=
    Nat.mod_lt _ hn
  have hcval : c = T.getD ((sa.getD i 0 + T.length - 1) % T.length) 0 := by
    rw [← hc, hbwt, List.getD_eq_getElem _ 0 (by rw [List.length_map]; omega),
      List.getElem_map, List.getD_eq_getElem sa 0 him]
  have hcmem : c ∈ T := by
    rw [hcval, List.getD_eq_getElem _ 0 htstar]
    exact List.getElem_mem htstar
  have hc256 : c < 256 := h256 c hcmem
  -- the row of the left rotation exists in sa
  have htmem : (sa.getD i 0 + T.length - 1) % T.length ∈ sa :=
    hperm.mem_iff.mpr (List.mem_range.mpr htstar)
  obtain ⟨j, hj, hjval⟩ := List.mem_iff_getElem.mp htmem
  have hjn : j < T.length := by omega
  have hasym : ∀ a b : ℕ, lexLtB (rotAt T a) (rotAt T b) = true →
      lexLtB (rotAt T b) (rotAt T a) = false :=
    fun a b h => lexLtB_asymm _ _ h
  -- index of row j by counting smaller rotations
  have hjcount : sa.countP
      (fun y => lexLtB (rotAt T y)
        (rotAt T ((sa.getD i 0 + T.length - 1) % T.length))) = j := by
    have h1 := sorted_index_countP
      (fun a b => lexLtB (rotAt T a) (rotAt T b)) hasym sa j 0 hsort hj
    rw [List.getD_eq_getElem sa 0 hj, hjval] at h1
    exact h1
  -- move the count to `range n` and split it by head character
  have hpt : ∀ y ∈ List.range T.length,
      lexLtB (rotAt T y)
        (rotAt T ((sa.getD i 0 + T.length - 1) % T.length)) =
      (decide (T.getD y 0 < c) || (decide (T.getD y 0 = c) &&
        lexLtB (rotAt T ((y + 1) % T.length)) (rotAt T (sa.getD i 0)))) := by
    intro y hy
    have hyn : y < T.length := List.mem_range.mp hy
    rw [rotAt_pred T (sa.getD i 0) hs, ← hcval, rotAt_cons T y hyn,
      lexLtB_cons, lexLtB_rot_take T hT ((y + 1) % T.length) (sa.getD i 0)
        (Nat.mod_lt _ hn) hs]
  have hsplit : (List.range T.length).countP
      (fun y => lexLtB (rotAt T y)
        (rotAt T ((sa.getD i 0 + T.length - 1) % T.length))) =
      (List.range T.length).countP (fun y => decide (T.getD y 0 < c)) +
      (List.range T.length).countP (fun y => decide (T.getD y 0 = c) &&
        lexLtB (rotAt T ((y + 1) % T.length)) (rotAt T (sa.getD i 0))) := by
    rw [List.countP_congr fun x hx => by rw [hpt x hx]]
    exact countP_or_disjoint _ _ _ fun y _ h => by
      have h1 := of_decide_eq_true h.1
      have h2 := h.2
      rw [Bool.and_eq_true] at h2
      have h3 := of_decide_eq_true h2.1
      omega
  -- first term: characters smaller than c
  have hterm1 : (List.range T.length).countP (fun y => decide (T.getD y 0 < c)) =
      idx.F.getD c 0 := by
    rw [hF c hc256 hcT, ← List.countP_eq_length_filter]
    exact countP_range_getD T (fun x => decide (x < c))
  -- second term: rows before i whose BWT character is c
  have hterm2 : (List.range T.length).countP (fun y => decide (T.getD y 0 = c) &&
      lexLtB (rotAt T ((y + 1) % T.length)) (rotAt T (sa.getD i 0))) =
      idx.bwt.rank i c := by
    have hpt2 : ∀ y ∈ List.range T.length,
        (decide (T.getD y 0 = c) &&
          lexLtB (rotAt T ((y + 1) % T.length)) (rotAt T (sa.getD i 0))) =
        (decide (T.getD (((y + 1) % T.length + T.length - 1) % T.length) 0 = c) &&
          lexLtB (rotAt T ((y + 1) % T.length)) (rotAt T (sa.getD i 0))) := by
      intro y hy
      have hyn : y < T.length := List.mem_range.mp hy
      rw [succ_mod_pred T.length y hyn]
    have hcong : (List.range T.length).countP (fun y => decide (T.getD y 0 = c) &&
        lexLtB (rotAt T ((y + 1) % T.length)) (rotAt T (sa.getD i 0))) =
        (List.range T.length).countP (fun y =>
          (fun z => decide (T.getD ((z + T.length - 1) % T.length) 0 = c) &&
            lexLtB (rotAt T z) (rotAt T (sa.getD i 0))) ((y + 1) % T.length)) :=
      List.countP_congr fun x hx => by rw [hpt2 x hx]
    rw [hcong, countP_range_shift T.length
      (fun z => decide (T.getD ((z + T.length - 1) % T.length) 0 = c) &&
        lexLtB (rotAt T z) (rotAt T (sa.getD i 0))), ← hperm.countP_eq]
    have h2 := sorted_countP_and_before
      (fun a b => lexLtB (rotAt T a) (rotAt T b)) hasym
      (fun z => decide (T.getD ((z + T.length - 1) % T.length) 0 = c))
      sa i 0 hsort him
    rw [h2]
    have h3 : (sa.take i).countP
        (fun z => decide (T.getD ((z + T.length - 1) % T.length) 0 = c)) =
        ((sa.take i).map
          (fun z => T.getD ((z + T.length - 1) % T.length) 0)).countP
          (fun x => decide (x = c)) :=
      (List.countP_map (fun x => decide (x = c))
        (fun z => T.getD ((z + T.length - 1) % T.length) 0) (sa.take i)).symm
    rw [h3, List.map_take, ← hbwt]
    unfold RLBWT.rank
    rw [List.countP_eq_length_filter]
  -- assemble
  have hjeq : j = idx.F.getD c 0 + idx.bwt.rank i c := by
    rw [← hjcount, hperm.countP_eq, hsplit, hterm1, hterm2]
  constructor
  · omega
  · rw [← hjeq, List.getD_eq_getElem sa 0 hj, hjval]

theorem sa_getD_lt (T sa : List ℕ) (hperm : sa.Perm (List.range T.length))
    (i : ℕ) (hi : i < T.length) : sa.getD i 0 < T.length := by
  have hsalen : sa.length = T.length := by
    rw [hperm.length_eq, List.length_range]
  have him : i < sa.length := by omega
  have hmem : sa.getD i 0 ∈ sa := by
    rw [List.getD_eq_getElem sa 0 him]
    exact List.getElem_mem him
  exact List.mem_range.mp (hperm.mem_iff.mp hmem)

theorem bwt_mem_text (idx : PMLIndex) (T sa : List ℕ)
    (hperm : sa.Perm (List.range T.length))
    (hbwt : idx.bwt.toList =
      sa.map (fun s => T.getD ((s + T.length - 1) % T.length) 0))
    (x : ℕ) (hx : x ∈ idx.bwt.toList) : x ∈ T := by
  rw [hbwt] at hx
  obtain ⟨z, hz, rfl⟩ := List.mem_map.mp hx
  have hzn : z < T.length := List.mem_range.mp (hperm.mem_iff.mp hz)
  have hn : 0 < T.length := by omega
  have hlt : (z + T.length - 1) % T.length < T.length := Nat.mod_lt _ hn
  rw [List.getD_eq_getElem _ 0 hlt]
  exact List.getElem_mem hlt

theorem prefix_take_of_le (w v : List ℕ) (k : ℕ) (hw : w <+: v)
    (hk : w.length ≤ k) : w <+: v.take k := by
  have h1 : (v.take k).take w.length = v.take w.length := by
    rw [List.take_take, min_eq_left hk]
  conv_lhs => rw [List.prefix_iff_eq_take.mp hw, ← h1]
  exact List.take_prefix _ _

/-- The match step of the PML engine: extending a matched prefix `w` of
row `pos`'s rotation by the BWT character `c` gives a matched prefix
`c :: w` of the LF-image row's rotation. -/
theorem lf_match_prefix (idx : PMLIndex) (T sa : List ℕ)
    (hm : IndexMatchesText idx T sa) (pos : ℕ) (hpos : pos < T.length)
    (c : ℕ) (hc : idx.bwt.toList.getD pos 0 = c) (hcT : TERMINATOR < c)
    (w : List ℕ) (hw : w <+: rotAt T (sa.getD pos 0)) (hnt : noTerminator w) :
    idx.F.getD c 0 + idx.bwt.rank pos c < T.length ∧
    (c :: w) <+: rotAt T (sa.getD (idx.F.getD c 0 + idx.bwt.rank pos c) 0) := by
  obtain ⟨hlt, heq⟩ := lf_row idx T sa hm pos hpos c hc hcT
  obtain ⟨hT, h256, hperm, hsort, hbwt, hF⟩ := hm
  have hn : 0 < T.length := validText_pos T hT
  have hs : sa.getD pos 0 < T.length := sa_getD_lt T sa hperm pos hpos
  refine ⟨hlt, ?_⟩
  rw [heq, rotAt_pred T (sa.getD pos 0) hs]
  have hsalen : sa.length = T.length := by
    rw [hperm.length_eq, List.length_range]
  have hcval : c = T.getD ((sa.getD pos 0 + T.length - 1) % T.length) 0 := by
    have hx : sa.getD pos 0 = sa.get ⟨pos, by omega⟩ :=
      List.getD_eq_getElem sa 0 (by omega)
    rw [← hc, hbwt, List.getD_eq_getElem _ 0 (by rw [List.length_map]; omega),
      List.getElem_map, hx]
    rfl
  rw [← hcval]
  apply List.cons_prefix_cons.mpr
  refine ⟨rfl, ?_⟩
  apply prefix_take_of_le w _ _ hw
  have := prefix_noTerm_length T hT (sa.getD pos 0) hs w hw hnt
  omega

/-- The invariant of the PML backward search over a matching index:
the state length never exceeds the processed pattern suffix, a positive
length means the current row's rotation starts with the matched
characters, and every emitted value is a lower bound on the
longest-match length at its position. -/
theorem pml_rtl_lower (idx : PMLIndex) (T sa : List ℕ)
    (hm : IndexMatchesText idx T sa) :
    ∀ P : List ℕ, noTerminator P →
      (((queryRTL (pmlStep idx) (idx.bwt.size - 1, 0) P).2).2 ≤ P.length ∧
        (0 < ((queryRTL (pmlStep idx) (idx.bwt.size - 1, 0) P).2).2 →
          ((queryRTL (pmlStep idx) (idx.bwt.size - 1, 0) P).2).1 < T.length ∧
          P.take ((queryRTL (pmlStep idx) (idx.bwt.size - 1, 0) P).2).2 <+:
            rotAt T
              (sa.getD ((queryRTL (pmlStep idx) (idx.bwt.size - 1, 0) P).2).1 0))) ∧
      (∀ i, i < P.length →
        ((queryRTL (pmlStep idx) (idx.bwt.size - 1, 0) P).1).getD i 0 ≤
          longestMatchLen T P i) := by
  have hT := hm.1
  have hsize : idx.bwt.size = T.length := by
    unfold RLBWT.size
    rw [hm.2.2.2.2.1, List.length_map, hm.2.2.1.length_eq, List.length_range]
  intro P
  induction P with
  | nil =>
    intro _
    exact ⟨⟨Nat.le_refl 0, fun h => absurd h (by simp [queryRTL])⟩,
      fun i hi => absurd hi (by simp)⟩
  | cons c cs ih =>
    intro hP
    have hPcs : noTerminator cs := fun x hx => hP x (List.mem_cons_of_mem c hx)
    obtain ⟨⟨hlen1, hinv1⟩, hout1⟩ := ih hPcs
    have hstep : queryRTL (pmlStep idx) (idx.bwt.size - 1, 0) (c :: cs) =
        ((pmlStep idx (queryRTL (pmlStep idx) (idx.bwt.size - 1, 0) cs).2 c).2 ::
          (queryRTL (pmlStep idx) (idx.bwt.size - 1, 0) cs).1,
          (pmlStep idx (queryRTL (pmlStep idx) (idx.bwt.size - 1, 0) cs).2 c).1) :=
      rfl
    by_cases h0 : idx.bwt.number_of_letter c = 0
    · -- absent character: reset
      have hval : pmlStep idx (queryRTL (pmlStep idx) (idx.bwt.size - 1, 0) cs).2 c =
          ((idx.LF (queryRTL (pmlStep idx) (idx.bwt.size - 1, 0) cs).2.1 c, 0), 0) := by
        simp [pmlStep, h0]
      rw [hstep, hval]
      refine ⟨⟨by simp, fun h => absurd h (by simp)⟩, ?_⟩
      intro i hi
      cases i with
      | zero => simp
      | succ j =>
        rw [List.getD_cons_succ, longestMatchLen_cons_succ]
        exact hout1 j (by simpa using hi)
    · by_cases hM : (queryRTL (pmlStep idx) (idx.bwt.size - 1, 0) cs).2.1 <
          idx.bwt.size ∧
          idx.bwt.access (queryRTL (pmlStep idx) (idx.bwt.size - 1, 0) cs).2.1 = c
      · -- match: extend
        have hval : pmlStep idx (queryRTL (pmlStep idx) (idx.bwt.size - 1, 0) cs).2 c =
            ((idx.LF (queryRTL (pmlStep idx) (idx.bwt.size - 1, 0) cs).2.1 c,
              (queryRTL (pmlStep idx) (idx.bwt.size - 1, 0) cs).2.2 + 1),
              (queryRTL (pmlStep idx) (idx.bwt.size - 1, 0) cs).2.2 + 1) := by
          simp [pmlStep, h0, hM]
        have hposn : (queryRTL (pmlStep idx) (idx.bwt.size - 1, 0) cs).2.1 <
            T.length := by
          rw [← hsize]; exact hM.1
        have hcT : TERMINATOR < c := by
          apply validText_gt_term T hT c
          · apply bwt_mem_text idx T sa hm.2.2.1 hm.2.2.2.2.1
            rw [← hM.2]
            unfold RLBWT.access
            rw [List.getD_eq_getElem _ 0 (by
              unfold RLBWT.size at hM; exact lt_of_lt_of_le hM.1 (le_refl _))]
            exact List.getElem_mem _
          · exact fun h => hP c (List.mem_cons_self c cs) h
        have hw : cs.take (queryRTL (pmlStep idx) (idx.bwt.size - 1, 0) cs).2.2 <+:
            rotAt T (sa.getD (queryRTL (pmlStep idx) (idx.bwt.size - 1, 0) cs).2.1 0) := by
          rcases Nat.eq_zero_or_pos
              (queryRTL (pmlStep idx) (idx.bwt.size - 1, 0) cs).2.2 with hz | hpz
          · rw [hz]
            simp
          · exact (hinv1 hpz).2
        have hntw : noTerminator
            (cs.take (queryRTL (pmlStep idx) (idx.bwt.size - 1, 0) cs).2.2) :=
          fun x hx => hPcs x ((List.take_prefix _ _).subset hx)
        have hlf := lf_match_prefix idx T sa hm
          (queryRTL (pmlStep idx) (idx.bwt.size - 1, 0) cs).2.1 hposn c
          (hM.2) hcT _ hw hntw
        rw [hstep, hval]
        constructor
        · constructor
          · simp
            omega
          · intro _
            refine ⟨?_, ?_⟩
            · show idx.LF _ c < T.length
              unfold PMLIndex.LF
              exact hlf.1
            · show (c :: cs).take (_ + 1) <+: _
              rw [List.take_succ_cons]
              show c :: _ <+: rotAt T (sa.getD (idx.LF _ c) 0)
              unfold PMLIndex.LF
              exact hlf.2
        · intro i hi
          cases i with
          | zero =>
            rw [List.getD_cons_zero]
            apply longestMatchLen_ge T (c :: cs) 0 _ (by simp; omega)
            rw [List.drop_zero, List.take_succ_cons]
            apply prefix_rot_infix T hT
              (sa.getD (idx.F.getD c 0 + idx.bwt.rank
                (queryRTL (pmlStep idx) (idx.bwt.size - 1, 0) cs).2.1 c) 0)
              (sa_getD_lt T sa hm.2.2.1 _ hlf.1)
            · show c :: _ <+: _
              exact hlf.2
            · intro x hx
              rcases List.mem_cons.mp hx with h | h
              · subst h; exact fun hh => hP x (List.mem_cons_self x cs) hh
              · exact hntw x h
          | succ j =>
            rw [List.getD_cons_succ, longestMatchLen_cons_succ]
            exact hout1 j (by simpa using hi)
      · -- mismatch: reset
        have hval : pmlStep idx (queryRTL (pmlStep idx) (idx.bwt.size - 1, 0) cs).2 c =
            ((idx.LF (pmlMismatchPos idx
              (queryRTL (pmlStep idx) (idx.bwt.size - 1, 0) cs).2.1 c) c, 0), 0) := by
          simp [pmlStep, h0, hM]
        rw [hstep, hval]
        refine ⟨⟨by simp, fun h => absurd h (by simp)⟩, ?_⟩
        intro i hi
        cases i with
        | zero => simp
        | succ j =>
          rw [List.getD_cons_succ, longestMatchLen_cons_succ]
          exact hout1 j (by simpa using hi)

/-!
## Claim C1
-/

/-- Claim C1, counterexample: for the validly built index of the text
T = [2, 2, 1] ("AA$") — whose only valid thresholds vector is [0, 0] —
and the terminator-free pattern P = [2] ("A"), the PML query emits
`lengths = [0]`, yet the longest substring of P starting at 0 that
occurs in T is "A" itself, of length 1.  (The first backward step sits
on the BWT row of the full text, whose BWT character is the terminator,
so the engine takes the mismatch branch and resets the length to 0.)
So `lengths[i]` is not the longest-match length. -/
theorem claim_C1_counterexample :
    validPMLIndex (pmlIndexOfText [2, 2, 1] [0, 0]) [2, 2, 1] ∧
    noTerminator [2] ∧
    pml_query (pmlIndexOfText [2, 2, 1] [0, 0]) [2] = [0] ∧
    longestMatchLen [2, 2, 1] [2] 0 = 1 := by decide

/-- Claim C1, amended: for every index that matches a text (valid text,
sorted rotations, BWT and F derived from them) and every terminator-free
pattern, the PML output is the count of consecutive match-extension
steps since the engine's last reset — `lengths[m-1] ≤ 1` and every
other `lengths[i]` is either 0 (a reset at position i) or
`lengths[i+1] + 1` (one extension) — and it is a conservative lower
bound: `lengths[i]` never exceeds the length of the longest substring
of P starting at i that occurs in T, but (per the counterexample) can
be strictly smaller. -/
theorem claim_C1_amended (idx : PMLIndex) (T sa : List ℕ) (P : List ℕ)
    (hm : IndexMatchesText idx T sa) (hP : noTerminator P) :
    (∀ i, i + 1 < (pml_query idx P).length →
      (pml_query idx P).getD i 0 = 0 ∨
        (pml_query idx P).getD i 0 = (pml_query idx P).getD (i + 1) 0 + 1) ∧
    (P ≠ [] → (pml_query idx P).getD (P.length - 1) 0 ≤ 1) ∧
    (∀ i, i < P.length →
      (pml_query idx P).getD i 0 ≤ longestMatchLen T P i) := by
  obtain ⟨hc, hh, hl⟩ := pml_rtl_props idx P (idx.bwt.size - 1, 0)
  refine ⟨?_, ?_, ?_⟩
  · intro i hi
    rw [pml_query_eq_rtl] at hi ⊢
    have h1 : i < ((queryRTL (pmlStep idx) (idx.bwt.size - 1, 0) P).1).length - 1 := by
      omega
    have h2 := List.chain'_iff_get.mp hc i h1
    rw [List.getD_eq_get _ 0 (by omega), List.getD_eq_get _ 0 (by omega)]
    exact h2
  · intro hPne
    rw [pml_query_eq_rtl]
    have hlen : ((queryRTL (pmlStep idx) (idx.bwt.size - 1, 0) P).1).length =
        P.length := queryRTL_length _ _ _
    have hne : (queryRTL (pmlStep idx) (idx.bwt.size - 1, 0) P).1 ≠ [] := by
      intro hcon
      exact hPne (List.length_eq_zero.mp (by rw [← hlen, hcon]; rfl))
    have hP0 : 0 < P.length := List.length_pos.mpr hPne
    have hlast := hl _ (List.getLast?_eq_getLast_of_ne_nil hne)
    have hg : (queryRTL (pmlStep idx) (idx.bwt.size - 1, 0) P).1.getD
        (P.length - 1) 0 =
        (queryRTL (pmlStep idx) (idx.bwt.size - 1, 0) P).1.getLast hne := by
      rw [List.getLast_eq_get]
      rw [List.getD_eq_get _ 0 (by rw [hlen]; omega)]
      congr 1
      exact Fin.ext (by simp only [hlen])
    rw [hg]
    omega
  · intro i hi
    rw [pml_query_eq_rtl]
    exact (pml_rtl_lower idx T sa hm P hP).2 i hi

/-- Claim C1, amended, witness. -/
theorem claim_C1_amended_witness :
    IndexMatchesText exPmlIdx [2, 3, 1] (suffixArr [2, 3, 1]) ∧
    noTerminator [2, 3] ∧
    (0 + 1 < (pml_query exPmlIdx [2, 3]).length) ∧
    ((pml_query exPmlIdx [2, 3]).getD 0 0 = 0 ∨
      (pml_query exPmlIdx [2, 3]).getD 0 0 =
        (pml_query exPmlIdx [2, 3]).getD 1 0 + 1) ∧
    (([2, 3] : List ℕ) ≠ [] ∧
      (pml_query exPmlIdx [2, 3]).getD (([2, 3] : List ℕ).length - 1) 0 ≤ 1) ∧
    (0 < ([2, 3] : List ℕ).length ∧
      (pml_query exPmlIdx [2, 3]).getD 0 0 ≤ longestMatchLen [2, 3, 1] [2, 3] 0) :=
  ⟨by decide, by decide, by decide,
    (claim_C1_amended exPmlIdx [2, 3, 1] (suffixArr [2, 3, 1]) [2, 3]
      (by decide) (by decide)).1 0 (by decide),
    ⟨by decide,
      (claim_C1_amended exPmlIdx [2, 3, 1] (suffixArr [2, 3, 1]) [2, 3]
        (by decide) (by decide)).2.1 (by decide)⟩,
    ⟨by decide,
      (claim_C1_amended exPmlIdx [2, 3, 1] (suffixArr [2, 3, 1]) [2, 3]
        (by decide) (by decide)).2.2 0 (by decide)⟩⟩

/-!
## Claim C2
-/

/-- Claim C2, counterexample: on the valid "AB$" index and pattern
P = [2, 3] ("AB"), the source query stores [1, 0] (the value for
pattern position i lands at `lengths[i]`); the claim's literal
placement `lengths[m-1-i] = value emitted for P[i]` would give [0, 1]. -/
theorem claim_C2_counterexample :
    validPMLIndex exPmlIdx [2, 3, 1] ∧ noTerminator [2, 3] ∧
    pml_query exPmlIdx [2, 3] = [1, 0] ∧
    pmlClaimC2Out exPmlIdx [2, 3] = [0, 1] ∧
    pml_query exPmlIdx [2, 3] ≠ pmlClaimC2Out exPmlIdx [2, 3] := by decide

/-- Claim C2, amended: the PML query starts from `pos = n-1`,
`length = 0` and, for `i = m-1` down to 0 on `c = P[i]`, applies exactly
the section-4.4 transition (emit 0 on an absent character; emit
`length + 1` keeping `pos` when `bwt[pos] = c`; otherwise reset
`length = 0`, snap to `select(rank(pos,c), c)` under the threshold rule
with sentinel `n + 1`), the emitted value is stored at `lengths[i]`
(not `lengths[m-1-i]`), and `pos` then advances to
`LF(pos, c) = F[c] + rank(pos, c)`. -/
theorem claim_C2_amended (idx : PMLIndex) (P : List ℕ) :
    pml_query idx P = pmlSpecOut idx P := by
  have hstep : pmlStep idx = pmlSpecStep idx :=
    funext fun s => funext fun c => pmlStep_eq_spec idx s c
  unfold pmlSpecOut
  rw [pml_query_eq_rtl, hstep]

/-!
## Claim C3
-/

/-- Claim C3, counterexample: on the valid "AB$" MS index and pattern
P = [2, 3] ("AB"), the source query stores [0, 1] (the value for
pattern position i lands at `pointers[i]`); the claim's literal
placement `pointers[m-1-i] = value emitted for P[i]` would give [1, 0]. -/
theorem claim_C3_counterexample :
    validMSIndex exMsIdx [2, 3, 1] ∧ noTerminator [2, 3] ∧
    ms_query exMsIdx [2, 3] = [0, 1] ∧
    msClaimC3Out exMsIdx [2, 3] = [1, 0] ∧
    ms_query exMsIdx [2, 3] ≠ msClaimC3Out exMsIdx [2, 3] := by decide

/-- Claim C3, amended: the MS query starts from `pos = n-1`,
`sample = samples_last[r-1]` and, for `i = m-1` down to 0 on `c = P[i]`,
applies exactly the section-4.5 transition (set `sample = 0` on an
absent character; decrement `sample` when `bwt[pos] = c`; otherwise take
`samples_start` of the snapped run, or `samples_last` of the run of
`select(rank-1, c)` when `pos < thr` with sentinel `thr = n + 1`), the
emitted value is stored at `pointers[i]` (not `pointers[m-1-i]`), and
`pos` then advances to `LF(pos, c)`. -/
theorem claim_C3_amended (idx : MSIndex) (P : List ℕ) :
    ms_query idx P = msSpecOut idx P := by
  have hstep : msStep idx = msSpecStep idx :=
    funext fun s => funext fun c => msStep_eq_spec idx s c
  unfold msSpecOut
  rw [ms_query_eq_rtl, hstep]

/-!
## Claim C4
-/

/-- Claim C4 (confirmed): for every read, random-access text and
pointers array, the lengths array computed by the forward sweep of
`ms_t::matching_statistics` equals the section-4.5 pseudocode result:
a single left-to-right scan carrying `l`, extending while
`i + l < m`, `p + l < n`, (`i = 0` or `p ≠ pointers[i-1] + 1`) and
`read[i+l] = char_at(p+l)`, then `lengths[i] = l` and
`l = max(l - 1, 0)`. -/
theorem claim_C4_sweep (read : List ℕ) (char_at : ℕ → ℕ) (n : ℕ)
    (ptrs : List ℕ) :
    matching_statistics_lengths read char_at n ptrs =
      spec_sweep_lengths read char_at n ptrs := by
  unfold matching_statistics_lengths spec_sweep_lengths
  exact msLengthsAux_eq_spec read char_at n ptrs 0 0 0

/-!
## Claim C5
-/

/-- Claim C5, counterexample: on the validly built "AB$" MS index and
the pattern [3, 0] ("B" followed by a byte absent from the reference),
the query first sets `sample = 0` (absent byte), then lands on a BWT
position holding 'B' and takes the match branch, whose unsigned
`sample--` wraps to `2^64 - 1`: the emitted pointer is not `< n`, so
`sample ∈ [0, n)` is not an invariant of the loop. -/
theorem claim_C5_counterexample :
    validMSIndex exMsIdx [2, 3, 1] ∧
    (ms_query exMsIdx [3, 0]).getD 0 0 = U64 - 1 ∧
    ¬ (ms_query exMsIdx [3, 0]).getD 0 0 < exMsIdx.bwt.size := by decide

/-- Claim C5, amended: the `sample` state variable is only a 64-bit
value: whenever the sample arrays hold values `< 2^64`, every value
written to the pointers output is `< 2^64` (the decrement wraps modulo
`2^64`); the stronger bound `sample ∈ [0, n)` fails because the match
branch can decrement a `sample` that is already 0 after an
absent-character step. -/
theorem claim_C5_amended (idx : MSIndex) (P : List ℕ)
    (hsl : ∀ x ∈ idx.samples_last, x < U64)
    (hss : ∀ x ∈ idx.samples_start, x < U64) :
    ∀ v ∈ ms_query idx P, v < U64 := by
  intro v hv
  unfold ms_query at hv
  rw [List.mem_reverse] at hv
  have hinit : idx.get_last_run_sample < U64 := by
    unfold MSIndex.get_last_run_sample
    exact getD_lt_of_bound _ _ hsl
  exact msLoop_all_lt idx hsl hss P.reverse _ hinit v hv

/-- Claim C5, amended, witness. -/
theorem claim_C5_amended_witness :
    (∀ x ∈ exMsIdx.samples_last, x < U64) ∧
    (∀ x ∈ exMsIdx.samples_start, x < U64) ∧
    ∀ v ∈ ms_query exMsIdx [2, 3], v < U64 :=
  ⟨by decide, by decide,
    claim_C5_amended exMsIdx [2, 3] (by decide) (by decide)⟩

/-!
## Claim C6
-/

/-- Claim C6, counterexample: [2, 3, 1] / [2, 1, 1] are the run heads
and run lengths of the BWT "AAB$" (= [2, 2, 3, 1]) of the valid text
"BAA$" (= [3, 2, 2, 1]).  `build_F_` records the loop counter — the
*run* index 2 of the terminator run — as `terminator_position`, but the
BWT character at position 2 is 3 ('B'), not the terminator (which sits
at BWT position 3).  So `bwt[terminator_position] = TERMINATOR` fails. -/
theorem claim_C6_counterexample :
    validText [3, 2, 2, 1] ∧
    runsOf (bwtOf [3, 2, 2, 1]) = [(2, 2), (3, 1), (1, 1)] ∧
    (build_F_ [2, 3, 1] [2, 1, 1]).2 = 2 ∧
    (RLBWT.mk [(2, 2), (3, 1), (1, 1)]).access 2 = 3 ∧
    (RLBWT.mk [(2, 2), (3, 1), (1, 1)]).access 2 ≠ TERMINATOR := by decide

/-- Claim C6, amended: when exactly one run head is `≤ TERMINATOR`,
`build_F_` records that head's *run index* (not a BWT position) as
`terminator_position`; the terminator character is the BWT character at
the first position of that run, i.e. at BWT position
`runStartPos(terminator_position)`. -/
theorem claim_C6_amended (heads lens : List ℕ) (k : ℕ)
    (hlen : heads.length = lens.length) (hk : k < heads.length)
    (hle : heads.getD k 0 ≤ TERMINATOR)
    (hgt : ∀ j, j < heads.length → j ≠ k → TERMINATOR < heads.getD j 0) :
    (build_F_ heads lens).2 = k ∧
    (0 < lens.getD k 0 →
      (RLBWT.mk (heads.zip lens)).access (runStartPos (heads.zip lens) k) =
        heads.getD k 0) := by
  constructor
  · show (buildFCount heads lens 0 (List.replicate 256 0, 0)).2 = k
    rw [buildFCount_tp_unique heads lens 0 _ k hk hle hgt]
    omega
  · intro hpos
    have hklen : k < (heads.zip lens).length := by
      rw [List.length_zip]; omega
    have hz : (heads.zip lens).getD k (0, 0) =
        (heads.getD k 0, lens.getD k 0) := by
      rw [List.getD_eq_getElem _ _ hklen, List.getElem_zip,
        List.getD_eq_getElem _ _ hk,
        List.getD_eq_getElem _ _ (show k < lens.length by omega)]
    have h := toList_getD_runStartPos (heads.zip lens) k hklen
      (by rw [hz]; exact hpos)
    rw [hz] at h
    exact h

/-- Claim C6, amended, witness. -/
theorem claim_C6_amended_witness :
    ([2, 3, 1] : List ℕ).length = ([2, 1, 1] : List ℕ).length ∧
    (2 : ℕ) < ([2, 3, 1] : List ℕ).length ∧
    ([2, 3, 1] : List ℕ).getD 2 0 ≤ TERMINATOR ∧
    (∀ j, j < ([2, 3, 1] : List ℕ).length → j ≠ 2 →
      TERMINATOR < ([2, 3, 1] : List ℕ).getD j 0) ∧
    ((build_F_ [2, 3, 1] [2, 1, 1]).2 = 2 ∧
      (0 < ([2, 1, 1] : List ℕ).getD 2 0 →
        (RLBWT.mk (([2, 3, 1] : List ℕ).zip [2, 1, 1])).access
          (runStartPos (([2, 3, 1] : List ℕ).zip [2, 1, 1]) 2) =
          ([2, 3, 1] : List ℕ).getD 2 0)) :=
  ⟨by decide, by decide, by decide, by decide,
    claim_C6_amended [2, 3, 1] [2, 1, 1] 2 (by decide) (by decide)
      (by decide) (by decide)⟩

/-!
## Claim C7
-/

/-- Claim C7, counterexample: a sample file of 15 bytes (one full
(left, right) pair plus 5 dangling bytes) with `r = 1`: the size is a
multiple of 5 but *not* equal to `2·r·5 = 10`, yet `read_samples` loads
it successfully (the `assert(length == r)` holds because
`15 / 10 = 1 = r`), storing `right - 1 = 2`.  So "fatal iff ... or size
not equal to 2·r·5" is false. -/
theorem claim_C7_counterexample :
    exBytes15.length % 5 = 0 ∧ exBytes15.length ≠ 2 * 1 * 5 ∧
    read_samples (some exBytes15) 1 5 = some [2] := by decide

/-- Claim C7, amended: `read_samples` fails fatally iff the file cannot
be opened or stat'ed, or its size is not a multiple of 5, or the number
of complete 10-byte pairs (size / 10 rounded down) differs from `r` —
a size of `10·r + 5` bytes loads successfully despite not being
`2·r·5`.  On a successful load exactly `r` values are stored, the
`i`-th being `right - 1` for the `i`-th pair (or `n - 1` when
`right = 0`). -/
theorem claim_C7_amended (r n : ℕ) (bytes : List ℕ) :
    read_samples none r n = none ∧
    (read_samples (some bytes) r n = none ↔
      bytes.length % 5 ≠ 0 ∨ bytes.length / 10 ≠ r) ∧
    (bytes.length % 5 = 0 → bytes.length / 10 = r →
      read_samples (some bytes) r n =
        some ((samplePairs r bytes).map (sampleVal n)) ∧
      ((samplePairs r bytes).map (sampleVal n)).length = r) := by
  refine ⟨rfl, ?_, ?_⟩
  · unfold read_samples
    by_cases h1 : bytes.length % 5 = 0
    · by_cases h2 : bytes.length / 10 = r <;> simp [h1, h2]
    · simp [h1]
  · intro h1 h2
    refine ⟨?_, by rw [List.length_map, samplePairs_length]⟩
    unfold read_samples
    simp [h1, h2]

/-- Claim C7, amended, witness. -/
theorem claim_C7_amended_witness :
    (read_samples none 1 5 = none) ∧
    (read_samples (some exBytes15) 1 5 = none ↔
      exBytes15.length % 5 ≠ 0 ∨ exBytes15.length / 10 ≠ 1) ∧
    (exBytes15.length % 5 = 0 ∧ exBytes15.length / 10 = 1 ∧
      read_samples (some exBytes15) 1 5 =
        some ((samplePairs 1 exBytes15).map (sampleVal 5)) ∧
      ((samplePairs 1 exBytes15).map (sampleVal 5)).length = 1) :=
  ⟨(claim_C7_amended 1 5 exBytes15).1, (claim_C7_amended 1 5 exBytes15).2.1,
    by decide, by decide,
    ((claim_C7_amended 1 5 exBytes15).2.2 (by decide) (by decide)).1,
    ((claim_C7_amended 1 5 exBytes15).2.2 (by decide) (by decide)).2⟩

/-!
## Claim C8
-/

/-- Claim C8 (confirmed): for every loaded index and every pattern over
any bytes — including bytes absent from the reference alphabet — the
PML query emits exactly `m = |P|` length values and the MS query emits
exactly `m` pointer values; both query loops are total functions of the
loaded index and the pattern, with no failing or early-exit path. -/
theorem claim_C8_exact_m (pidx : PMLIndex) (midx : MSIndex) (P : List ℕ) :
    (pml_query pidx P).length = P.length ∧
    (ms_query midx P).length = P.length := by
  constructor
  · unfold pml_query
    rw [List.length_reverse, queryLoop_length, List.length_reverse]
  · unfold ms_query
    rw [List.length_reverse, queryLoop_length, List.length_reverse]

/-!
## Claim C9
-/

/-- Claim C9 (confirmed): `serialize` writes `terminator_position`, `F`,
the RLBWT, `samples_last`, `thresholds`, `samples_start` in that fixed
order (the definition of `msSerialize`), `load` reads them back in the
same order and recomputes `r = bwt.number_of_runs()`, and for every
well-formed index (64-bit representable fields, `r` consistent with the
BWT) the round trip reproduces the index exactly, hence bitwise
identical output on any subsequent query. -/
theorem claim_C9_roundtrip (X : MSIndex)
    (h1 : X.terminator_position < U64)
    (h2 : X.F.length < U64) (h3 : ∀ x ∈ X.F, x < U64)
    (h4 : X.bwt.runs.length < U64)
    (h5 : ∀ p ∈ X.bwt.runs, p.1 < 256 ∧ p.2 < U64)
    (h6 : X.samples_last.length < U64) (h7 : ∀ x ∈ X.samples_last, x < U64)
    (h8 : X.thresholds.length < U64) (h9 : ∀ x ∈ X.thresholds, x < U64)
    (h10 : X.samples_start.length < U64)
    (h11 : ∀ x ∈ X.samples_start, x < U64)
    (hr : X.r = X.bwt.number_of_runs) :
    msLoad (msSerialize X) = some X ∧
    ∀ Y P, msLoad (msSerialize X) = some Y → ms_query Y P = ms_query X P := by
  have h := msLoad_msSerialize X h1 h2 h3 h4 h5 h6 h7 h8 h9 h10 h11
  have hX : { X with r := X.bwt.number_of_runs } = X := by
    cases X
    simp only at hr
    simp [hr]
  rw [hX] at h
  refine ⟨h, fun Y P hY => ?_⟩
  rw [h, Option.some.injEq] at hY
  rw [hY]

/-- Claim C9, witness. -/
theorem claim_C9_roundtrip_witness :
    exMsIdx.r = exMsIdx.bwt.number_of_runs ∧
    msLoad (msSerialize exMsIdx) = some exMsIdx :=
  ⟨by decide,
    (claim_C9_roundtrip exMsIdx (by decide) (by decide) (by decide)
      (by decide) (by decide) (by decide) (by decide) (by decide)
      (by decide) (by decide) (by decide) (by decide)).1⟩

/-!
## Claim C10
-/

/-- Claim C10 (confirmed): in the document-aware PML query, a pattern
position `i` whose character does not occur in the BWT reports the same
document id as the position to its right (`doc_nums[i+1]` when
`i + 1 < m`, and the initial value `end_runs_doc[r-1]` when
`i = m - 1`): the absent-character branch resets only the length and
leaves `curr_doc_id` unchanged.  The document-aware MS query instead
sets `curr_doc_id = start_runs_doc[run_of_position(0)]` in that case. -/
theorem claim_C10_doc_frame (pidx : PMLIndex) (midx : MSIndex)
    (da : DocArray) (P : List ℕ) (i : ℕ) (hi : i < P.length)
    (hpml : pidx.bwt.number_of_letter (P.getD i 0) = 0)
    (hms : midx.bwt.number_of_letter (P.getD i 0) = 0) :
    (pml_doc_query pidx da P).2.getD i 0 =
      (if i + 1 < P.length then (pml_doc_query pidx da P).2.getD (i + 1) 0
       else da.end_runs_doc.getD (pidx.bwt.number_of_runs - 1) 0) ∧
    (ms_doc_query midx da P).2.getD i 0 =
      da.start_runs_doc.getD (midx.bwt.run_of_position 0) 0 := by
  constructor
  · rw [pml_doc_query_snd]
    exact pmlDoc_absent pidx da _ P i hi hpml
  · rw [ms_doc_query_snd]
    exact msDoc_absent midx da _ P i hi hms

/-- Claim C10, witness: on the "AB$" indexes with document arrays, the
pattern [2, 0] has an absent character (byte 0) at its last position
`i = 1 = m - 1`, so the PML document id there is the initial
`end_runs_doc[r-1] = 10` and the MS document id is
`start_runs_doc[run_of_position(0)] = 5`. -/
theorem claim_C10_doc_frame_witness :
    (1 < ([2, 0] : List ℕ).length) ∧
    exPmlIdx.bwt.number_of_letter (([2, 0] : List ℕ).getD 1 0) = 0 ∧
    exMsIdx.bwt.number_of_letter (([2, 0] : List ℕ).getD 1 0) = 0 ∧
    ((pml_doc_query exPmlIdx exDocArr [2, 0]).2.getD 1 0 =
      (if 1 + 1 < ([2, 0] : List ℕ).length then
        (pml_doc_query exPmlIdx exDocArr [2, 0]).2.getD 2 0
       else exDocArr.end_runs_doc.getD (exPmlIdx.bwt.number_of_runs - 1) 0) ∧
     (ms_doc_query exMsIdx exDocArr [2, 0]).2.getD 1 0 =
      exDocArr.start_runs_doc.getD (exMsIdx.bwt.run_of_position 0) 0) :=
  ⟨by decide, by decide, by decide,
    claim_C10_doc_frame exPmlIdx exMsIdx exDocArr [2, 0] 1 (by decide)
      (by decide) (by decide)⟩

end Spumoni
